import Mathlib

/-!
Brunsli entropy-coding core: bit writer and ANS encode table.

A shallow embedding of `c/enc/write_bits.h` (`WriteBits`,
`WriteBitsPrepareStorage`) and of `c/enc/ans_encode.cc` (`ANSBuildInfoTable`,
`BuildAndStoreANSEncodingData`), followed by the properties proved about them.

Conventions of the embedding.

* A `uint8_t*` is a total map from byte index to byte (`Buffer`); index `i` is
  the cell `array[i]`.  A `const int*` is a total map from index to integer.
* `size_t` quantities (bit cursor, bit counts, byte indices) address storage and
  are natural numbers.  The `pos` field that `WriteBits` returns is the sum
  `pos + n_bits` itself; the value that the `size_t` statement `*pos += n_bits`
  stores is that sum modulo `2^64` and is the separate definition
  `WriteBitsCursor`.  The two agree exactly when `pos + n_bits < 2^64`.
* `uint64_t`, `uint32_t`, `uint8_t` and `int` values are reduced modulo their
  width at every operation that can leave the range.  A `uint64_t` parameter is
  reduced modulo `2^64` on entry, so every natural number stands for the 64-bit
  value it is congruent to.
* Undefined behaviour that the code can reach (a division by zero) is the result
  `none`.
* The headers `ans_encode.h`, `platform.h` and `types.h` are not among the
  sources; what the functions use from them is a parameter (`ANSConfig`,
  `PipelineConfig`) or is modelled from the specification and marked so.
* `histogram_encode.cc` is not among the sources either.  Its `NormalizeCounts`
  is modelled from section 4.2 of the specification and marked so; its
  `EncodeCounts` is a parameter of `BuildAndStoreANSEncodingData`.
-/

namespace Brunsli

/-! ## Bit writer (`c/enc/write_bits.h`) -/

/-- Byte storage reached through a `uint8_t*`. -/
abbrev Buffer := Nat → Fin 256

/-- The conversion `static_cast<uint8_t>(x)`. -/
def toU8 (x : Nat) : Fin 256 := ⟨x % 256, Nat.mod_lt x (by decide)⟩

/-- The assignment `array[i] = b`. -/
def store (array : Buffer) (i : Nat) (b : Fin 256) : Buffer :=
  fun j => if j = i then b else array j

/-- The pair that `WriteBits` updates in place: the bit cursor `*pos` and the
bytes behind `array`. -/
structure BitStorage where
  pos : Nat
  array : Buffer

/-- Modelled from the spec: the macro `BRUNSLI_UNALIGNED_STORE64LE` is declared
in `common/platform.h`, which is not among the sources.  It stores the 64-bit
value `v` into the eight bytes `p .. p+7`, least-significant byte first. -/
def BRUNSLI_UNALIGNED_STORE64LE (array : Buffer) (p : Nat) (v : Nat) : Buffer :=
  fun j => if p ≤ j ∧ j < p + 8 then toU8 (v >>> (8 * (j - p))) else array j

/-- The branch of `WriteBits` under `#if defined(BRUNSLI_LITTLE_ENDIAN)`:
load one byte, OR in the shifted value, store 64 bits.  The `pos` field is the
sum `pos + n_bits` before its reduction to `size_t`; `WriteBitsCursor` is the
value stored in `*pos`. -/
def WriteBitsLittleEndian (n_bits bits : Nat) (st : BitStorage) : BitStorage :=
  let bits := bits % 2 ^ 64
  let p := st.pos >>> 3
  let v := (st.array p).val
  let v := v ||| (bits <<< (st.pos &&& 7)) % 2 ^ 64
  { pos := st.pos + n_bits, array := BRUNSLI_UNALIGNED_STORE64LE st.array p v }

/-- The `for` loop of the byte-by-byte branch.  The loop variable
`bits_left_to_write` drops by 8 per round while it is at least 9; `fuel` bounds
the number of rounds and is set to the initial `bits_left_to_write` by the
caller, which is always enough.  Returns the final `array_pos` and the bytes. -/
def WriteBitsLoop : Nat → Nat → Nat → Nat → Buffer → Nat × Buffer
  | 0, _, _, array_pos, array => (array_pos, array)
  | fuel + 1, bits_left_to_write, bits, array_pos, array =>
    if 9 ≤ bits_left_to_write then
      let bits := bits >>> 8
      WriteBitsLoop fuel (bits_left_to_write - 8) bits (array_pos + 1)
        (store array array_pos (toU8 bits))
    else (array_pos, array)

/-- The `#else` branch of `WriteBits`: OR into the first byte, store the
following bytes one at a time, zero the byte after.  The `pos` field is the
sum `pos + n_bits` before its reduction to `size_t`; `WriteBitsCursor` is the
value stored in `*pos`. -/
def WriteBitsBytewise (n_bits bits : Nat) (st : BitStorage) : BitStorage :=
  let bits := bits % 2 ^ 64
  let array_pos := st.pos >>> 3
  let bits_reserved_in_first_byte := st.pos &&& 7
  let bits := (bits <<< bits_reserved_in_first_byte) % 2 ^ 64
  let array := store st.array array_pos
    (toU8 ((st.array array_pos).val ||| (toU8 bits).val))
  let array_pos := array_pos + 1
  let r := WriteBitsLoop (n_bits + bits_reserved_in_first_byte)
    (n_bits + bits_reserved_in_first_byte) bits array_pos array
  { pos := st.pos + n_bits, array := store r.2 r.1 0 }

/-- `WriteBits`, with the preprocessor symbol `BRUNSLI_LITTLE_ENDIAN` as a
Boolean parameter. -/
def WriteBits (BRUNSLI_LITTLE_ENDIAN : Bool) (n_bits bits : Nat)
    (st : BitStorage) : BitStorage :=
  if BRUNSLI_LITTLE_ENDIAN then WriteBitsLittleEndian n_bits bits st
  else WriteBitsBytewise n_bits bits st

/-- The conversion to `size_t`, 64 bits wide. -/
def toSizeT (x : Nat) : Nat := x % 2 ^ 64

/-- The value that `WriteBits` leaves in `*pos`.  The statement
`*pos += n_bits` (the last statement of both branches) is `size_t` addition and
wraps modulo `2^64`; this is the `pos` field of `WriteBits` after that
reduction. -/
def WriteBitsCursor (BRUNSLI_LITTLE_ENDIAN : Bool) (n_bits bits : Nat)
    (st : BitStorage) : Nat :=
  toSizeT (WriteBits BRUNSLI_LITTLE_ENDIAN n_bits bits st).pos

/-- `WriteBitsPrepareStorage`: `array[pos >> 3] = 0`. -/
def WriteBitsPrepareStorage (pos : Nat) (array : Buffer) : Buffer :=
  store array (pos >>> 3) 0

/-- Stream bit `q` of a buffer: bit `q & 7` of byte `q >> 3`. -/
def streamBit (array : Buffer) (q : Nat) : Bool :=
  (array (q >>> 3)).val.testBit (q &&& 7)

/-- Every bit of byte `pos >> 3` at in-byte position `>= pos & 7` is zero. -/
def ZeroTail (array : Buffer) (pos : Nat) : Prop :=
  ∀ k, k < 8 → (pos &&& 7) ≤ k → (array (pos >>> 3)).val.testBit k = false

instance (array : Buffer) (pos : Nat) : Decidable (ZeroTail array pos) := by
  unfold ZeroTail
  infer_instance

/-- A sequence of `WriteBits` calls on `(width, value)` pairs, in order. -/
def WriteBitsSeq (le : Bool) (pairs : List (Nat × Nat)) (st : BitStorage) :
    BitStorage :=
  pairs.foldl (fun s p => WriteBits le p.1 p.2 s) st

/-- The `n` low bits of `v`, least-significant first. -/
def lowBits (n v : Nat) : List Bool := (List.range n).map v.testBit

/-- The bit string that a sequence of `(width, value)` pairs denotes. -/
def concatBits (pairs : List (Nat × Nat)) : List Bool :=
  pairs.flatMap (fun p => lowBits p.1 p.2)

/-- The 64-bit word that both branches of `WriteBits` spread over the bytes:
the loaded first byte OR the shifted value (the local `v` of the little-endian
branch). -/
def wordOf (bits : Nat) (st : BitStorage) : Nat :=
  (st.array (st.pos >>> 3)).val ||| ((bits % 2 ^ 64) <<< (st.pos &&& 7)) % 2 ^ 64

/-- Number of rounds of the `for` loop of the byte-by-byte branch: the loop
variable starts at `n_bits + (pos & 7)` and drops by 8 while it is at least 9. -/
def rounds (n_bits pos : Nat) : Nat := (n_bits + (pos &&& 7) - 1) / 8

/-- The frame stated for `WriteBits`: no byte outside the 8 bytes at indices
`(pos >> 3) .. (pos >> 3) + 7` changes. -/
def FrameWithinEight (le : Bool) (n_bits bits : Nat) (st : BitStorage) : Prop :=
  ∀ j, (j < st.pos >>> 3 ∨ st.pos >>> 3 + 8 ≤ j) →
    (WriteBits le n_bits bits st).array j = st.array j

/-- A buffer as callers hand it over: the byte at the cursor is prepared (zero),
the bytes after it hold stale data (`0xAA`). -/
def staleBuffer : Buffer := fun j => if j = 0 then 0 else 170

/-- A buffer whose first byte holds one written bit, followed by stale data. -/
def staleBufferOneBit : Buffer := fun j => if j = 0 then 1 else 170

/-! ## ANS encode table (`c/enc/ans_encode.cc`) -/

/-- One entry of the encode table (`struct ANSEncSymbolInfo`). -/
structure ANSEncSymbolInfo where
  freq_ : Nat
  start_ : Nat
  ifreq_ : Nat
deriving DecidableEq

/-- Declarations of `ans_encode.h` that `ANSBuildInfoTable` depends on and that
are not among the sources, taken as parameters: the bit width of the unsigned
fields `freq_` and `start_`, the bit width of the unsigned field `ifreq_`, the
value of the macro `RECIPROCAL_PRECISION`, and whether `USE_MULT_BY_RECIPROCAL`
is defined. -/
structure ANSConfig where
  field_bits : Nat
  ifreq_bits : Nat
  RECIPROCAL_PRECISION : Nat
  USE_MULT_BY_RECIPROCAL : Bool

/-- A configuration for concrete instances: 16-bit `freq_` and `start_`, 64-bit
`ifreq_`, `RECIPROCAL_PRECISION` 42, reciprocal enabled. -/
def sampleConfig : ANSConfig :=
  { field_bits := 16, ifreq_bits := 64, RECIPROCAL_PRECISION := 42,
    USE_MULT_BY_RECIPROCAL := true }

/-- Conversion of an integer to an unsigned type of `w` bits. -/
def toUint (w : Nat) (x : Int) : Nat := (x % 2 ^ w).toNat

/-- Conversion of an integer to `int` (32 bits, two's complement). -/
def toInt32 (x : Int) : Int := (x + 2 ^ 31) % 2 ^ 32 - 2 ^ 31

/-- The expression
`((1ull << RECIPROCAL_PRECISION) + info[s].freq_ - 1) / info[s].freq_`,
in `unsigned long long` arithmetic, for a divisor `freq_ > 0`. -/
def reciprocal (P freq_ : Nat) : Nat :=
  (((1 <<< P) % 2 ^ 64 + freq_ - 1) % 2 ^ 64) / freq_

/-- The body of the `for` loop of `ANSBuildInfoTable`, run for the symbols
`s, s+1, ..., s+k-1`, with the running `int total` and the table so far.
`none` is a division by zero: the guard tests the `uint32_t freq` while the
divisor is the stored field `info[s].freq_`. -/
def ANSBuildInfoTableLoop (cfg : ANSConfig) (counts : Nat → Int) :
    Nat → Nat → Int → (Nat → ANSEncSymbolInfo) → Option (Nat → ANSEncSymbolInfo)
  | 0, _, _, info => some info
  | k + 1, s, total, info =>
    let freq : Nat := toUint 32 (counts s)
    let freq_ : Nat := toUint cfg.field_bits (counts s)
    let start_ : Nat := toUint cfg.field_bits total
    let total : Int := toInt32 (total + freq)
    if cfg.USE_MULT_BY_RECIPROCAL then
      if freq ≠ 0 then
        if freq_ = 0 then none
        else
          let ifreq_ := reciprocal cfg.RECIPROCAL_PRECISION freq_ % 2 ^ cfg.ifreq_bits
          ANSBuildInfoTableLoop cfg counts k (s + 1) total
            (fun j => if j = s then ⟨freq_, start_, ifreq_⟩ else info j)
      else
        ANSBuildInfoTableLoop cfg counts k (s + 1) total
          (fun j => if j = s then ⟨freq_, start_, 1⟩ else info j)
    else
      ANSBuildInfoTableLoop cfg counts k (s + 1) total
        (fun j => if j = s then ⟨freq_, start_, (info s).ifreq_⟩ else info j)

/-- `ANSBuildInfoTable(counts, alphabet_size, info)`: `total = 0`, then the loop
over `s = 0 .. alphabet_size - 1`. -/
def ANSBuildInfoTable (cfg : ANSConfig) (counts : Nat → Int) (alphabet_size : Nat)
    (info : Nat → ANSEncSymbolInfo) : Option (Nat → ANSEncSymbolInfo) :=
  ANSBuildInfoTableLoop cfg counts alphabet_size 0 0 info

/-- Sum of the counts of the symbols below `s`. -/
def cumulative (counts : Nat → Int) (s : Nat) : Int :=
  ∑ j in Finset.range s, counts j

/-- The entry that the loop writes for symbol `s` when no division by zero
occurs, given the entry `old` that was there before. -/
def entryOf (cfg : ANSConfig) (counts : Nat → Int) (old : ANSEncSymbolInfo)
    (s : Nat) : ANSEncSymbolInfo :=
  { freq_ := toUint cfg.field_bits (counts s)
    start_ := toUint cfg.field_bits (cumulative counts s)
    ifreq_ :=
      if cfg.USE_MULT_BY_RECIPROCAL then
        if toUint 32 (counts s) ≠ 0 then
          reciprocal cfg.RECIPROCAL_PRECISION (toUint cfg.field_bits (counts s))
            % 2 ^ cfg.ifreq_bits
        else 1
      else old.ifreq_ }

/-- A small histogram used for concrete instances: counts 3, 5, 0, 8. -/
def sampleCounts : Nat → Int := fun j =>
  if j = 0 then 3 else if j = 1 then 5 else if j = 3 then 8 else 0

/-- An initial table with all fields zero. -/
def zeroInfo : Nat → ANSEncSymbolInfo := fun _ => ⟨0, 0, 0⟩

/-- The divisor of the division that the loop body of `ANSBuildInfoTable`
performs for symbol `s`: the stored field `info[s].freq_`, under the guard
`freq != 0` on the `uint32_t freq`.  `none` when the body performs no division
for `s` (the guard is false, or `USE_MULT_BY_RECIPROCAL` is not defined). -/
def reciprocalDivisor (cfg : ANSConfig) (counts : Nat → Int) (s : Nat) : Option Nat :=
  if cfg.USE_MULT_BY_RECIPROCAL then
    if toUint 32 (counts s) ≠ 0 then some (toUint cfg.field_bits (counts s)) else none
  else none

/-! ## Encoding pipeline (`BuildAndStoreANSEncodingData`, `c/enc/ans_encode.cc`) -/

/-- Constants that `BuildAndStoreANSEncodingData` takes from headers that are
not among the sources, as parameters on top of those of `ANSConfig`:
`ANS_MAX_SYMBOLS`, `ANS_LOG_TAB_SIZE` and `kMaxNumSymbolsForSmallCode`. -/
structure PipelineConfig extends ANSConfig where
  ANS_MAX_SYMBOLS : Nat
  ANS_LOG_TAB_SIZE : Nat
  kMaxNumSymbolsForSmallCode : Nat

/-- A configuration for concrete instances: 4 symbols, table size `2^10`,
small-code threshold 16, over `sampleConfig`. -/
def samplePipeline : PipelineConfig :=
  { sampleConfig with
    ANS_MAX_SYMBOLS := 4, ANS_LOG_TAB_SIZE := 10, kMaxNumSymbolsForSmallCode := 16 }

/-- Modelled from the spec: a histogram entry read as the non-negative count of
section 3 ("ordered sequence of non-negative integer counts"); `NormalizeCounts`
is defined in `histogram_encode.cc`, which is not among the sources.  An entry
below zero is outside the specification and counts as zero. -/
def histCount (counts : Nat → Int) (s : Nat) : Nat := (counts s).toNat

/-- Modelled from the spec: the total of the histogram over the alphabet, the
quantity that section 4.2 scales against (part of the missing
`NormalizeCounts`). -/
def histTotal (counts : Nat → Int) (length : Nat) : Nat :=
  ∑ s in Finset.range length, histCount counts s

/-- Modelled from the spec: the number of symbols with a nonzero count, the
support of section 4.2 (part of the missing `NormalizeCounts`). -/
def supportSize (counts : Nat → Int) (length : Nat) : Nat :=
  ∑ s in Finset.range length, if histCount counts s = 0 then 0 else 1

/-- Modelled from the spec: the first symbol among `0 .. n` with the largest
count, the choice of `omit_pos` in section 4.2 step 4 ("the symbol with the
largest frequency"); part of the missing `NormalizeCounts`. -/
def largestSymbol (counts : Nat → Int) : Nat → Nat
  | 0 => 0
  | n + 1 =>
    if histCount counts (largestSymbol counts n) < histCount counts (n + 1) then n + 1
    else largestSymbol counts n

/-- Modelled from the spec: the scaling of section 4.2 step 2 before the
remainder is placed (part of the missing `NormalizeCounts`).  A zero count stays
zero; a nonzero count receives the minimum 1 and, rounded down, its
proportional share of what is left of `table_size` after every nonzero symbol
has received 1. -/
def scaledCount (counts : Nat → Int) (length table_size s : Nat) : Nat :=
  if histCount counts s = 0 then 0
  else 1 + histCount counts s * (table_size - supportSize counts length) /
    histTotal counts length

/-- Modelled from the spec: the normalized count of section 4.2 step 2 (part of
the missing `NormalizeCounts`): the scaled count, and for the symbol with the
largest count also the remainder that rounding down left, so that the total is
`table_size`. -/
def normalizedCount (counts : Nat → Int) (length table_size s : Nat) : Nat :=
  scaledCount counts length table_size s +
    if s = largestSymbol counts (length - 1) then
      table_size - ∑ j in Finset.range length, scaledCount counts length table_size j
    else 0

/-- Modelled from the spec: the array that the missing `NormalizeCounts` leaves
in `counts[0 .. length-1]` (section 4.2).  For an all-zero histogram the policy
of step 1 applies, with symbol 0 as the sentinel that receives the whole
`table_size = 1 << precision_bits`.  Entries from `length` on are not touched. -/
def normalizedArray (counts : Nat → Int) (length precision_bits : Nat) : Nat → Int :=
  fun s =>
    if s < length then
      if histTotal counts length = 0 then (if s = 0 then 2 ^ precision_bits else 0)
      else (normalizedCount counts length (2 ^ precision_bits) s : Nat)
    else counts s

/-- What `NormalizeCounts` hands back through its pointer arguments: the
rewritten `counts`, `*omit_pos`, `*num_symbols` and `symbols`. -/
structure NormalizedCounts where
  counts : Nat → Int
  omit_pos : Int
  num_symbols : Int
  symbols : Nat → Int

/-- Modelled from the spec: `NormalizeCounts(counts, omit_pos, length,
precision_bits, num_symbols, symbols)` is defined in `histogram_encode.cc`,
which is not among the sources; this is section 4.2 of the specification.
The counts become `normalizedArray`; `omit_pos` is the symbol with the largest
count (the sentinel 0 for an all-zero histogram); the symbols with a nonzero
normalized count are listed in ascending order, and when there are at most
`kMaxNumSymbolsForSmallCode` of them their number and the list are recorded,
otherwise `num_symbols` is 0 and `symbols` is left as it was. -/
def NormalizeCounts (kMaxNumSymbolsForSmallCode : Nat) (counts : Nat → Int)
    (length precision_bits : Nat) (symbols : Nat → Int) : NormalizedCounts :=
  let out := normalizedArray counts length precision_bits
  let support := (List.range length).filter (fun s => out s ≠ 0)
  let small : Bool := support.length ≤ kMaxNumSymbolsForSmallCode
  { counts := out
    omit_pos :=
      if histTotal counts length = 0 then 0 else largestSymbol counts (length - 1)
    num_symbols := if small then support.length else 0
    symbols := fun i =>
      if small ∧ i < support.length then (support.getD i 0 : Nat) else symbols i }

/-- The local `std::vector<int> counts(histogram, histogram + n)`: a copy of the
first `n` entries of the histogram. -/
def histogramCopy (histogram : Nat → Int) (n : Nat) : Nat → Int :=
  fun s => if s < n then histogram s else 0

/-- The memory that `BuildAndStoreANSEncodingData` reads and writes: the
caller's `histogram`, the encode table `table->info_`, and the output
`storage_ix`/`storage`. -/
structure EncodingData where
  histogram : Nat → Int
  table : Nat → ANSEncSymbolInfo
  storage : BitStorage

/-- `BuildAndStoreANSEncodingData(histogram, table, storage_ix, storage)`.
`symbols` starts zeroed, `counts` is a copy of the first `ANS_MAX_SYMBOLS`
entries of `histogram`; then `NormalizeCounts` on the copy, `ANSBuildInfoTable`
from the copy, `EncodeCounts` on the copy.  `EncodeCounts` is defined in
`histogram_encode.cc`, which is not among the sources, and is a parameter: a
function from its arguments and the output storage to the new output storage. -/
def BuildAndStoreANSEncodingData (cfg : PipelineConfig)
    (EncodeCounts : (Nat → Int) → Int → Int → (Nat → Int) → BitStorage → BitStorage)
    (histogram : Nat → Int) (table : Nat → ANSEncSymbolInfo) (storage : BitStorage) :
    Option EncodingData :=
  let symbols : Nat → Int := fun _ => 0
  let counts : Nat → Int := histogramCopy histogram cfg.ANS_MAX_SYMBOLS
  let norm := NormalizeCounts cfg.kMaxNumSymbolsForSmallCode counts
    cfg.ANS_MAX_SYMBOLS cfg.ANS_LOG_TAB_SIZE symbols
  match ANSBuildInfoTable cfg.toANSConfig norm.counts cfg.ANS_MAX_SYMBOLS table with
  | none => none
  | some info =>
    some { histogram := histogram, table := info,
           storage := EncodeCounts norm.counts norm.omit_pos norm.num_symbols
             norm.symbols storage }

/-- The result of the `NormalizeCounts` call inside
`BuildAndStoreANSEncodingData`: on the copy of the histogram, with `symbols`
zeroed, `length = ANS_MAX_SYMBOLS` and `precision_bits = ANS_LOG_TAB_SIZE`. -/
def normalizedOf (cfg : PipelineConfig) (histogram : Nat → Int) : NormalizedCounts :=
  NormalizeCounts cfg.kMaxNumSymbolsForSmallCode
    (histogramCopy histogram cfg.ANS_MAX_SYMBOLS) cfg.ANS_MAX_SYMBOLS
    cfg.ANS_LOG_TAB_SIZE (fun _ => 0)

/-- An `EncodeCounts` for concrete instances: it writes nothing. -/
def noEncodeCounts : (Nat → Int) → Int → Int → (Nat → Int) → BitStorage → BitStorage :=
  fun _ _ _ _ st => st

/-! ## Bit writer: auxiliary facts -/

theorem shiftRight_three (x : Nat) : x >>> 3 = x / 8 := by
  rw [Nat.shiftRight_eq_div_pow]

theorem and_seven (x : Nat) : x &&& 7 = x % 8 := by
  have h := Nat.and_pow_two_sub_one_eq_mod x 3
  simpa using h

theorem toU8_val (x : Nat) : (toU8 x).val = x % 2 ^ 8 := rfl

theorem toU8_testBit (x b : Nat) :
    (toU8 x).val.testBit b = (decide (b < 8) && x.testBit b) := by
  rw [toU8_val, Nat.testBit_mod_two_pow]

theorem byte_testBit_ge (a : Fin 256) (b : Nat) (hb : 8 ≤ b) :
    a.val.testBit b = false := by
  apply Nat.testBit_lt_two_pow
  calc a.val < 2 ^ 8 := a.isLt
    _ ≤ 2 ^ b := Nat.pow_le_pow_right (by decide) hb

theorem byte_ext (a b : Fin 256)
    (h : ∀ k, k < 8 → a.val.testBit k = b.val.testBit k) : a = b := by
  apply Fin.ext
  apply Nat.eq_of_testBit_eq
  intro k
  by_cases hk : k < 8
  · exact h k hk
  · rw [byte_testBit_ge a k (by omega), byte_testBit_ge b k (by omega)]

theorem wordOf_testBit (bits : Nat) (st : BitStorage) (t : Nat) (ht : t < 64) :
    (wordOf bits st).testBit t =
      ((st.array (st.pos >>> 3)).val.testBit t ||
        (decide (st.pos &&& 7 ≤ t) && bits.testBit (t - (st.pos &&& 7)))) := by
  unfold wordOf
  rw [Nat.testBit_lor, Nat.testBit_mod_two_pow, Nat.testBit_shiftLeft,
    Nat.testBit_mod_two_pow]
  have h2 : t - (st.pos &&& 7) < 64 := by omega
  simp [ht, h2]

theorem WriteBitsLittleEndian_array (n_bits bits : Nat) (st : BitStorage) (j : Nat) :
    (WriteBitsLittleEndian n_bits bits st).array j =
      if st.pos >>> 3 ≤ j ∧ j < st.pos >>> 3 + 8 then
        toU8 (wordOf bits st >>> (8 * (j - st.pos >>> 3)))
      else st.array j := rfl

theorem WriteBitsLoop_spec (fuel : Nat) :
    ∀ (left bits array_pos : Nat) (array : Buffer), (left - 1) / 8 ≤ fuel →
      (WriteBitsLoop fuel left bits array_pos array).1 = array_pos + (left - 1) / 8 ∧
      ∀ j, (WriteBitsLoop fuel left bits array_pos array).2 j =
        if array_pos ≤ j ∧ j < array_pos + (left - 1) / 8 then
          toU8 (bits >>> (8 * (j - array_pos + 1)))
        else array j := by
  induction fuel with
  | zero =>
    intro left bits array_pos array h
    have h0 : (left - 1) / 8 = 0 := by omega
    refine ⟨by simp [WriteBitsLoop, h0], ?_⟩
    intro j
    have hj : ¬ (array_pos ≤ j ∧ j < array_pos + (left - 1) / 8) := by omega
    rw [if_neg hj]
    rfl
  | succ fuel ih =>
    intro left bits array_pos array h
    unfold WriteBitsLoop
    by_cases h9 : 9 ≤ left
    · have hc : (left - 1) / 8 = (left - 8 - 1) / 8 + 1 := by omega
      obtain ⟨ih1, ih2⟩ := ih (left - 8) (bits >>> 8) (array_pos + 1)
        (store array array_pos (toU8 (bits >>> 8))) (by omega)
      simp only [h9, if_true]
      refine ⟨by rw [ih1]; omega, ?_⟩
      intro j
      rw [ih2 j, hc]
      by_cases hj1 : array_pos + 1 ≤ j ∧ j < array_pos + 1 + (left - 8 - 1) / 8
      · have hj2 : array_pos ≤ j ∧ j < array_pos + ((left - 8 - 1) / 8 + 1) := by omega
        rw [if_pos hj1, if_pos hj2, ← Nat.shiftRight_add]
        congr 2
        omega
      · rw [if_neg hj1]
        by_cases hj0 : j = array_pos
        · subst hj0
          have hj2 : j ≤ j ∧ j < j + ((left - 8 - 1) / 8 + 1) := by omega
          rw [if_pos hj2]
          simp [store]
        · have hj2 : ¬ (array_pos ≤ j ∧ j < array_pos + ((left - 8 - 1) / 8 + 1)) := by
            omega
          rw [if_neg hj2]
          simp [store, hj0]
    · have h0 : (left - 1) / 8 = 0 := by omega
      simp only [h9, if_false]
      refine ⟨by omega, ?_⟩
      intro j
      have hj : ¬ (array_pos ≤ j ∧ j < array_pos + (left - 1) / 8) := by omega
      rw [if_neg hj]

theorem store_apply (array : Buffer) (i : Nat) (b : Fin 256) (j : Nat) :
    store array i b j = if j = i then b else array j := rfl

theorem first_byte_eq (a : Fin 256) (B : Nat) :
    toU8 (a.val ||| (toU8 B).val) = toU8 ((a.val ||| B) >>> (8 * 0)) := by
  apply byte_ext
  intro k hk
  simp [toU8_testBit, hk, Nat.testBit_lor]

theorem later_byte_eq (a : Fin 256) (B k : Nat) (hk : 1 ≤ k) :
    toU8 (B >>> (8 * k)) = toU8 ((a.val ||| B) >>> (8 * k)) := by
  apply byte_ext
  intro b hb
  have ha : a.val.testBit (8 * k + b) = false := byte_testBit_ge a _ (by omega)
  simp [toU8_testBit, hb, Nat.testBit_lor, Nat.testBit_shiftRight, ha]

theorem WriteBitsBytewise_array (n_bits bits : Nat) (st : BitStorage) (j : Nat) :
    (WriteBitsBytewise n_bits bits st).array j =
      if j = st.pos >>> 3 + rounds n_bits st.pos + 1 then 0
      else if st.pos >>> 3 ≤ j ∧ j ≤ st.pos >>> 3 + rounds n_bits st.pos then
        toU8 (wordOf bits st >>> (8 * (j - st.pos >>> 3)))
      else st.array j := by
  obtain ⟨h1, h2⟩ := WriteBitsLoop_spec (n_bits + (st.pos &&& 7))
    (n_bits + (st.pos &&& 7)) (((bits % 2 ^ 64) <<< (st.pos &&& 7)) % 2 ^ 64)
    (st.pos >>> 3 + 1)
    (store st.array (st.pos >>> 3) (toU8 ((st.array (st.pos >>> 3)).val |||
      (toU8 (((bits % 2 ^ 64) <<< (st.pos &&& 7)) % 2 ^ 64)).val)))
    (Nat.le_trans (Nat.div_le_self _ _) (Nat.sub_le _ _))
  show store _ _ 0 j = _
  rw [store_apply, h1]
  unfold rounds
  by_cases hz : j = st.pos >>> 3 + (n_bits + (st.pos &&& 7) - 1) / 8 + 1
  · rw [if_pos hz, if_pos (by omega)]
  · rw [if_neg hz, if_neg (by omega), h2 j]
    by_cases hl : st.pos >>> 3 + 1 ≤ j ∧
        j < st.pos >>> 3 + 1 + (n_bits + (st.pos &&& 7) - 1) / 8
    · rw [if_pos hl, if_pos (by omega)]
      have hk : j - (st.pos >>> 3 + 1) + 1 = j - st.pos >>> 3 := by omega
      rw [hk]
      exact later_byte_eq _ _ _ (by omega)
    · rw [if_neg hl]
      by_cases h0 : j = st.pos >>> 3
      · subst h0
        rw [if_pos (by omega)]
        simp only [store, if_true, Nat.sub_self]
        exact first_byte_eq _ _
      · rw [if_neg (by omega)]
        simp [store, h0]

/-- Stream bit `q` as bit `q % 8` of byte `q / 8`. -/
theorem streamBit_eq (array : Buffer) (q : Nat) :
    streamBit array q = (array (q / 8)).val.testBit (q % 8) := by
  unfold streamBit; rw [shiftRight_three, and_seven]

/-- Both branches put bit `t` of the word into stream bit `8 * (pos / 8) + t`,
for every `t` in the bytes the branch fills from the word. -/
theorem WriteBits_streamBit_word (le : Bool) (n_bits bits : Nat) (st : BitStorage)
    (hn : n_bits ≤ 56) (t : Nat) (ht : t < 8 * (rounds n_bits st.pos + 1)) :
    streamBit (WriteBits le n_bits bits st).array (8 * (st.pos / 8) + t) =
      (wordOf bits st).testBit t := by
  have hr : rounds n_bits st.pos ≤ 7 := by
    unfold rounds; rw [and_seven]; omega
  have hq : (8 * (st.pos / 8) + t) / 8 = st.pos / 8 + t / 8 := by omega
  have hm : (8 * (st.pos / 8) + t) % 8 = t % 8 := by omega
  have hsub : st.pos / 8 + t / 8 - st.pos / 8 = t / 8 := by omega
  have hb : 8 * (t / 8) + t % 8 = t := by omega
  have hlt : t % 8 < 8 := by omega
  rw [streamBit_eq, hq, hm]
  cases le
  · simp only [WriteBits, Bool.false_eq_true, if_false]
    rw [WriteBitsBytewise_array, shiftRight_three]
    rw [if_neg (by omega), if_pos (by omega), hsub, toU8_testBit,
      Nat.testBit_shiftRight, hb]
    simp [hlt]
  · simp only [WriteBits, if_true]
    rw [WriteBitsLittleEndian_array, shiftRight_three]
    rw [if_pos (by omega), hsub, toU8_testBit, Nat.testBit_shiftRight, hb]
    simp [hlt]

/-- The little-endian branch puts every bit `t < 64` of the word into stream bit
`8 * (pos / 8) + t`. -/
theorem LittleEndian_streamBit_word (n_bits bits : Nat) (st : BitStorage)
    (t : Nat) (ht : t < 64) :
    streamBit (WriteBits true n_bits bits st).array (8 * (st.pos / 8) + t) =
      (wordOf bits st).testBit t := by
  have hq : (8 * (st.pos / 8) + t) / 8 = st.pos / 8 + t / 8 := by omega
  have hm : (8 * (st.pos / 8) + t) % 8 = t % 8 := by omega
  have hsub : st.pos / 8 + t / 8 - st.pos / 8 = t / 8 := by omega
  have hb : 8 * (t / 8) + t % 8 = t := by omega
  have hlt : t % 8 < 8 := by omega
  rw [streamBit_eq, hq, hm]
  simp only [WriteBits, if_true]
  rw [WriteBitsLittleEndian_array, shiftRight_three]
  rw [if_pos (by omega), hsub, toU8_testBit, Nat.testBit_shiftRight, hb]
  simp [hlt]

/-- Bytes outside the window of a branch keep their value: below `pos >> 3`
for both branches, from `(pos >> 3) + 8` on for the little-endian branch, and
after `(pos >> 3) + rounds + 1` for the byte-by-byte branch. -/
theorem WriteBits_frame (le : Bool) (n_bits bits : Nat) (st : BitStorage) (j : Nat)
    (hj : j < st.pos >>> 3 ∨
      (if le then st.pos >>> 3 + 8 ≤ j else st.pos >>> 3 + rounds n_bits st.pos + 1 < j)) :
    (WriteBits le n_bits bits st).array j = st.array j := by
  cases le
  · simp only [WriteBits, Bool.false_eq_true, if_false] at hj ⊢
    rw [WriteBitsBytewise_array, if_neg (by omega), if_neg (by omega)]
  · simp only [WriteBits, if_true] at hj ⊢
    rw [WriteBitsLittleEndian_array, if_neg (by omega)]

/-- The old first byte has no bit at or above `pos & 7` under `ZeroTail`. -/
theorem zeroTail_old_bit (st : BitStorage) (hz : ZeroTail st.array st.pos)
    (t : Nat) (ht : st.pos &&& 7 ≤ t) :
    (st.array (st.pos >>> 3)).val.testBit t = false := by
  by_cases h8 : t < 8
  · exact hz t h8 ht
  · exact byte_testBit_ge _ _ (by omega)

theorem rounds_le (n_bits pos : Nat) (hn : n_bits ≤ 56) : rounds n_bits pos ≤ 7 := by
  unfold rounds; rw [and_seven]; omega

/-- Bits written: stream bit `pos + i` receives bit `i` of the value. -/
theorem WriteBits_bits_written (le : Bool) (n v : Nat) (st : BitStorage)
    (hn : n ≤ 56) (hz : ZeroTail st.array st.pos) (i : Nat) (hi : i < n) :
    streamBit (WriteBits le n v st).array (st.pos + i) = v.testBit i := by
  have hr := rounds_le n st.pos hn
  have hpos : st.pos + i = 8 * (st.pos / 8) + (st.pos % 8 + i) := by omega
  have ht : st.pos % 8 + i < 8 * (rounds n st.pos + 1) := by
    unfold rounds; rw [and_seven]; omega
  rw [hpos, WriteBits_streamBit_word le n v st hn _ ht,
    wordOf_testBit v st _ (by omega),
    zeroTail_old_bit st hz _ (by rw [and_seven]; omega), and_seven]
  simp

/-- Bits below the cursor keep their value. -/
theorem WriteBits_below_preserved (le : Bool) (n v : Nat) (st : BitStorage)
    (hn : n ≤ 56) (q : Nat) (hq : q < st.pos) :
    streamBit (WriteBits le n v st).array q = streamBit st.array q := by
  by_cases hb : q / 8 < st.pos / 8
  · rw [streamBit_eq, streamBit_eq,
      WriteBits_frame le n v st (q / 8) (Or.inl (by rw [shiftRight_three]; exact hb))]
  · have hqe : q = 8 * (st.pos / 8) + q % 8 := by omega
    have hlt : q % 8 < st.pos % 8 := by omega
    rw [hqe, WriteBits_streamBit_word le n v st hn _ (by omega),
      wordOf_testBit v st _ (by omega), streamBit_eq, shiftRight_three, and_seven]
    have hq8 : (8 * (st.pos / 8) + q % 8) / 8 = st.pos / 8 := by omega
    have hm8 : (8 * (st.pos / 8) + q % 8) % 8 = q % 8 := by omega
    rw [hq8, hm8]
    have hd : ¬ (st.pos % 8 ≤ q % 8) := by omega
    simp [hd]

/-- The zero tail moves with the cursor. -/
theorem WriteBits_zeroTail (le : Bool) (n v : Nat) (st : BitStorage)
    (hn : n ≤ 56) (hv : v < 2 ^ n) (hz : ZeroTail st.array st.pos) :
    ZeroTail (WriteBits le n v st).array (st.pos + n) := by
  intro k hk hle
  rw [and_seven] at hle
  have hr := rounds_le n st.pos hn
  have hrd : rounds n st.pos = (n + st.pos % 8 - 1) / 8 := by
    unfold rounds; rw [and_seven]
  have hidx : (st.pos + n) / 8 = st.pos / 8 + (st.pos % 8 + n) / 8 := by omega
  have key : ∀ t, st.pos % 8 + n ≤ t → t < 64 → (wordOf v st).testBit t = false := by
    intro t h1 h2
    rw [wordOf_testBit v st t h2, zeroTail_old_bit st hz t (by rw [and_seven]; omega),
      and_seven]
    have hvb : v.testBit (t - st.pos % 8) = false := by
      apply Nat.testBit_lt_two_pow
      calc v < 2 ^ n := hv
        _ ≤ 2 ^ (t - st.pos % 8) := Nat.pow_le_pow_right (by decide) (by omega)
    simp [hvb]
  have hbit : streamBit (WriteBits le n v st).array
      (8 * (st.pos / 8) + (8 * ((st.pos % 8 + n) / 8) + k)) = false := by
    cases le
    · by_cases hc : (st.pos % 8 + n) / 8 = rounds n st.pos + 1
      · rw [streamBit_eq]
        have hq8 : (8 * (st.pos / 8) + (8 * ((st.pos % 8 + n) / 8) + k)) / 8 =
            st.pos >>> 3 + rounds n st.pos + 1 := by
          rw [shiftRight_three]; omega
        rw [hq8]
        simp only [WriteBits, Bool.false_eq_true, if_false]
        rw [WriteBitsBytewise_array, if_pos rfl]
        simp
      · rw [WriteBits_streamBit_word false n v st hn _ (by omega)]
        exact key _ (by omega) (by omega)
    · rw [LittleEndian_streamBit_word n v st _ (by omega)]
      exact key _ (by omega) (by omega)
  rw [streamBit_eq] at hbit
  have hq8 : (8 * (st.pos / 8) + (8 * ((st.pos % 8 + n) / 8) + k)) / 8 =
      (st.pos + n) / 8 := by omega
  have hm8 : (8 * (st.pos / 8) + (8 * ((st.pos % 8 + n) / 8) + k)) % 8 = k := by omega
  rw [hq8, hm8] at hbit
  rw [shiftRight_three]
  exact hbit

theorem WriteBits_pos (le : Bool) (n v : Nat) (st : BitStorage) :
    (WriteBits le n v st).pos = st.pos + n := by
  cases le <;> rfl

theorem lowBits_length (n v : Nat) : (lowBits n v).length = n := by
  simp [lowBits]

theorem lowBits_getElem? (n v i : Nat) (hi : i < n) :
    (lowBits n v)[i]? = some (v.testBit i) := by
  simp [lowBits, List.getElem?_map, List.getElem?_range hi]

theorem concatBits_cons (p : Nat × Nat) (ps : List (Nat × Nat)) :
    concatBits (p :: ps) = lowBits p.1 p.2 ++ concatBits ps := by
  simp [concatBits]

/-- Invariant of a run of `WriteBits` calls that starts on a zero tail. -/
theorem WriteBitsSeq_invariant (le : Bool) (pairs : List (Nat × Nat)) :
    ∀ st : BitStorage, (∀ p ∈ pairs, p.1 ≤ 56 ∧ p.2 < 2 ^ p.1) →
      ZeroTail st.array st.pos →
      (WriteBitsSeq le pairs st).pos = st.pos + (concatBits pairs).length ∧
      ZeroTail (WriteBitsSeq le pairs st).array (WriteBitsSeq le pairs st).pos ∧
      (∀ q, q < st.pos →
        streamBit (WriteBitsSeq le pairs st).array q = streamBit st.array q) ∧
      (∀ i, i < (concatBits pairs).length →
        (concatBits pairs)[i]? =
          some (streamBit (WriteBitsSeq le pairs st).array (st.pos + i))) := by
  induction pairs with
  | nil =>
    intro st _ hz
    refine ⟨by simp [WriteBitsSeq, concatBits], by simpa [WriteBitsSeq] using hz,
      by simp [WriteBitsSeq], ?_⟩
    intro i hi
    simp [concatBits] at hi
  | cons p ps ih =>
    intro st hp hz
    have hp1 := hp p (List.mem_cons_self _ _)
    have hps : ∀ q ∈ ps, q.1 ≤ 56 ∧ q.2 < 2 ^ q.1 :=
      fun q hq => hp q (List.mem_cons_of_mem _ hq)
    have hz1 := WriteBits_zeroTail le p.1 p.2 st hp1.1 hp1.2 hz
    have hpos1 := WriteBits_pos le p.1 p.2 st
    rw [← hpos1] at hz1
    obtain ⟨i1, i2, i3, i4⟩ := ih (WriteBits le p.1 p.2 st) hps hz1
    have hseq : WriteBitsSeq le (p :: ps) st =
        WriteBitsSeq le ps (WriteBits le p.1 p.2 st) := rfl
    rw [hseq, concatBits_cons, List.length_append, lowBits_length]
    refine ⟨by rw [i1, hpos1]; omega, i2, ?_, ?_⟩
    · intro q hq
      rw [i3 q (by rw [hpos1]; omega)]
      exact WriteBits_below_preserved le p.1 p.2 st hp1.1 q hq
    · intro i hi
      by_cases hlt : i < p.1
      · rw [List.getElem?_append_left (by rw [lowBits_length]; exact hlt),
          lowBits_getElem? _ _ _ hlt, i3 (st.pos + i) (by rw [hpos1]; omega),
          WriteBits_bits_written le p.1 p.2 st hp1.1 hz i hlt]
      · rw [List.getElem?_append_right (by rw [lowBits_length]; omega),
          lowBits_length, i4 (i - p.1) (by omega), hpos1]
        have he : st.pos + p.1 + (i - p.1) = st.pos + i := by omega
        rw [he]

theorem zeroTail_prepare (pos : Nat) (array : Buffer) :
    ZeroTail (WriteBitsPrepareStorage pos array) pos := by
  intro k _ _
  simp [WriteBitsPrepareStorage, store]

/-! ## ANS encode table: auxiliary facts -/

theorem toInt32_modEq (x : Int) : toInt32 x ≡ x [ZMOD 2 ^ 32] := by
  unfold toInt32 Int.ModEq
  omega

theorem toUint_cast (w : Nat) (x : Int) : ((toUint w x : Nat) : Int) = x % 2 ^ w := by
  unfold toUint
  exact Int.toNat_of_nonneg (Int.emod_nonneg _ (by positivity))

theorem toUint_modEq (w : Nat) (x : Int) : ((toUint w x : Nat) : Int) ≡ x [ZMOD 2 ^ w] := by
  rw [toUint_cast]
  exact Int.mod_modEq _ _

theorem toUint_congr (w : Nat) (x y : Int) (h : x ≡ y [ZMOD 2 ^ w]) :
    toUint w x = toUint w y := by
  unfold toUint
  rw [h]

theorem toUint_of_lt (w : Nat) (x : Int) (h0 : 0 ≤ x) (h1 : x < 2 ^ w) :
    ((toUint w x : Nat) : Int) = x := by
  rw [toUint_cast]
  exact Int.emod_eq_of_lt h0 h1

theorem cumulative_succ (counts : Nat → Int) (s : Nat) :
    cumulative counts (s + 1) = cumulative counts s + counts s := by
  unfold cumulative
  rw [Finset.sum_range_succ]

theorem modEq_narrow (w : Nat) (hw : w ≤ 32) (x y : Int) (h : x ≡ y [ZMOD 2 ^ 32]) :
    x ≡ y [ZMOD 2 ^ w] :=
  Int.ModEq.of_dvd (pow_dvd_pow 2 hw) h

/-- Closed form of the loop: when no guarded division has a zero divisor, the
loop returns the table whose entries `s .. s+k-1` are `entryOf`. -/
theorem ANSBuildInfoTableLoop_spec (cfg : ANSConfig) (counts : Nat → Int)
    (hW : cfg.field_bits ≤ 32) (k : Nat) :
    ∀ (s : Nat) (total : Int) (info : Nat → ANSEncSymbolInfo),
      total ≡ cumulative counts s [ZMOD 2 ^ 32] →
      (∀ j, s ≤ j → j < s + k → cfg.USE_MULT_BY_RECIPROCAL = true →
        toUint 32 (counts j) ≠ 0 → toUint cfg.field_bits (counts j) ≠ 0) →
      ANSBuildInfoTableLoop cfg counts k s total info =
        some (fun j => if s ≤ j ∧ j < s + k then entryOf cfg counts (info j) j
          else info j) := by
  induction k with
  | zero =>
    intro s total info _ _
    simp only [ANSBuildInfoTableLoop]
    congr 1
    funext j
    rw [if_neg (by omega)]
  | succ k ih =>
    intro s total info htot hdiv
    have hstart : toUint cfg.field_bits total =
        toUint cfg.field_bits (cumulative counts s) :=
      toUint_congr _ _ _ (modEq_narrow _ hW _ _ htot)
    have htot1 : toInt32 (total + (toUint 32 (counts s) : Nat)) ≡
        cumulative counts (s + 1) [ZMOD 2 ^ 32] := by
      rw [cumulative_succ]
      exact (toInt32_modEq _).trans (Int.ModEq.add htot (toUint_modEq 32 _))
    have hdiv1 : ∀ j, s + 1 ≤ j → j < s + 1 + k → cfg.USE_MULT_BY_RECIPROCAL = true →
        toUint 32 (counts j) ≠ 0 → toUint cfg.field_bits (counts j) ≠ 0 :=
      fun j h1 h2 => hdiv j (by omega) (by omega)
    have hfin : ∀ (e : ANSEncSymbolInfo), e = entryOf cfg counts (info s) s →
        (fun j => if s + 1 ≤ j ∧ j < s + 1 + k then
            entryOf cfg counts ((fun i => if i = s then e else info i) j) j
          else (fun i => if i = s then e else info i) j) =
        (fun j => if s ≤ j ∧ j < s + (k + 1) then entryOf cfg counts (info j) j
          else info j) := by
      intro e he
      funext j
      by_cases h1 : s + 1 ≤ j ∧ j < s + 1 + k
      · have hjs : j ≠ s := by omega
        rw [if_pos h1, if_pos (by omega)]
        simp only [hjs, if_false]
      · rw [if_neg h1]
        by_cases hjs : j = s
        · subst hjs
          rw [if_pos (by omega)]
          simp only [if_true]
          exact he
        · rw [if_neg (by omega)]
          simp only [hjs, if_false]
    unfold ANSBuildInfoTableLoop
    simp only []
    by_cases hu : cfg.USE_MULT_BY_RECIPROCAL = true
    · by_cases hf : toUint 32 (counts s) ≠ 0
      · have hf_ := hdiv s (le_refl _) (by omega) hu hf
        rw [if_pos hu, if_pos hf, if_neg hf_, ih _ _ _ htot1 hdiv1]
        congr 1
        apply hfin
        simp [entryOf, hu, hf, hstart]
      · rw [if_pos hu, if_neg hf, ih _ _ _ htot1 hdiv1]
        congr 1
        apply hfin
        simp [entryOf, hu, hf, hstart]
    · rw [if_neg hu, ih _ _ _ htot1 hdiv1]
      congr 1
      apply hfin
      simp [entryOf, hu, hstart]

/-- Closed form of `ANSBuildInfoTable` when no guarded division has a zero
divisor. -/
theorem ANSBuildInfoTable_spec (cfg : ANSConfig) (counts : Nat → Int)
    (alphabet_size : Nat) (info : Nat → ANSEncSymbolInfo)
    (hW : cfg.field_bits ≤ 32)
    (hdiv : ∀ j, j < alphabet_size → cfg.USE_MULT_BY_RECIPROCAL = true →
      toUint 32 (counts j) ≠ 0 → toUint cfg.field_bits (counts j) ≠ 0) :
    ANSBuildInfoTable cfg counts alphabet_size info =
      some (fun j => if j < alphabet_size then entryOf cfg counts (info j) j
        else info j) := by
  unfold ANSBuildInfoTable
  rw [ANSBuildInfoTableLoop_spec cfg counts hW alphabet_size 0 0 info
    (by simp [cumulative]) (fun j _ h2 => hdiv j (by omega))]
  congr 1
  funext j
  simp

theorem ceilDiv_mul_ge (a f : Nat) (hf : 0 < f) : a ≤ (a + f - 1) / f * f := by
  have h1 := Nat.div_add_mod (a + f - 1) f
  have h2 := Nat.mod_lt (a + f - 1) hf
  have h3 : f * ((a + f - 1) / f) = (a + f - 1) / f * f := Nat.mul_comm _ _
  omega

theorem ceilDiv_mul_lt (a f : Nat) (hf : 0 < f) : (a + f - 1) / f * f < a + f := by
  have h1 := Nat.div_mul_le_self (a + f - 1) f
  omega

theorem ceilDiv_least (a f m : Nat) (hf : 0 < f) (hm : a ≤ m * f) : (a + f - 1) / f ≤ m := by
  have h := ceilDiv_mul_lt a f hf
  by_contra hc
  have h2 : (m + 1) * f ≤ (a + f - 1) / f * f := Nat.mul_le_mul_right f (by omega)
  have h3 : (m + 1) * f = m * f + f := by ring
  omega

theorem ceilDiv_eq_ceil (a f : Nat) (hf : 0 < f) (ha : 0 < a) :
    (a + f - 1) / f = ⌈(a : ℚ) / (f : ℚ)⌉₊ := by
  symm
  have hfq : (0 : ℚ) < f := by exact_mod_cast hf
  have hge := ceilDiv_mul_ge a f hf
  have hlt := ceilDiv_mul_lt a f hf
  have hm0 : (a + f - 1) / f ≠ 0 := by
    intro h0
    rw [h0] at hge
    omega
  rw [Nat.ceil_eq_iff hm0]
  constructor
  · rw [lt_div_iff₀ hfq]
    have h1 : ((a + f - 1) / f - 1) * f < a := by
      have : ((a + f - 1) / f - 1) * f = (a + f - 1) / f * f - f := by
        rw [Nat.sub_mul, Nat.one_mul]
      omega
    exact_mod_cast h1
  · rw [div_le_iff₀ hfq]
    exact_mod_cast hge

/-- Multiplying by the rounded-up reciprocal and shifting is exact division as
long as `x * (f - 1) < 2 ^ P`. -/
theorem mulShift_exact (P f x : Nat) (hf : 0 < f) (hx : x * (f - 1) < 2 ^ P) :
    (x * ((2 ^ P + f - 1) / f)) >>> P = x / f := by
  rw [Nat.shiftRight_eq_div_pow]
  set m := (2 ^ P + f - 1) / f with hm
  have hge := ceilDiv_mul_ge (2 ^ P) f hf
  have hlt := ceilDiv_mul_lt (2 ^ P) f hf
  rw [← hm] at hge hlt
  have hpos : 0 < 2 ^ P := by positivity
  -- e := m * f - 2^P, 0 ≤ e ≤ f - 1
  obtain ⟨e, he⟩ : ∃ e, m * f = 2 ^ P + e := ⟨m * f - 2 ^ P, by omega⟩
  have he1 : e ≤ f - 1 := by omega
  have hxq := Nat.div_add_mod x f
  have hr := Nat.mod_lt x hf
  set q := x / f
  set r := x % f
  -- x * m = q * 2^P + (q * e + r * m)
  have hxe : x * e < 2 ^ P := lt_of_le_of_lt (Nat.mul_le_mul_left x he1) hx
  have key : (q * e + r * m) * f < 2 ^ P * f := by
    have e1 : (q * e + r * m) * f = e * (f * q + r) + r * 2 ^ P := by
      have : r * m * f = r * (m * f) := by ring
      rw [Nat.add_mul, this, he]; ring
    rw [e1, hxq]
    have e2 : r * 2 ^ P ≤ (f - 1) * 2 ^ P := Nat.mul_le_mul_right _ (by omega)
    have e3 : (f - 1) * 2 ^ P + 2 ^ P = 2 ^ P * f := by
      have : f = (f - 1) + 1 := by omega
      nth_rewrite 2 [this]; ring
    have e4 : e * x = x * e := Nat.mul_comm _ _
    omega
  have key2 : q * e + r * m < 2 ^ P := Nat.lt_of_mul_lt_mul_right key
  have hxm : x * m = q * 2 ^ P + (q * e + r * m) := by
    have hrm : r * m * f = r * (2 ^ P + e) := by rw [Nat.mul_assoc, he]
    have h1 : x * m * f = (q * 2 ^ P + (q * e + r * m)) * f := by
      have a1 : x * m * f = (f * q + r) * (2 ^ P + e) := by rw [Nat.mul_assoc, he, hxq]
      have a2 : (q * 2 ^ P + (q * e + r * m)) * f =
          q * 2 ^ P * f + q * e * f + r * (2 ^ P + e) := by
        rw [← hrm]; ring
      rw [a1, a2]; ring
    exact Nat.eq_of_mul_eq_mul_right hf h1
  rw [hxm]
  rw [Nat.add_div_of_dvd_right (Dvd.intro_left q rfl)]
  rw [Nat.mul_div_cancel _ hpos, Nat.div_eq_of_lt key2]
  rfl

/-- A guarded division with a zero divisor makes the loop fail. -/
theorem ANSBuildInfoTableLoop_none (cfg : ANSConfig) (counts : Nat → Int)
    (hu : cfg.USE_MULT_BY_RECIPROCAL = true) (k : Nat) :
    ∀ (s : Nat) (total : Int) (info : Nat → ANSEncSymbolInfo),
      (∃ j, s ≤ j ∧ j < s + k ∧ toUint 32 (counts j) ≠ 0 ∧
        toUint cfg.field_bits (counts j) = 0) →
      ANSBuildInfoTableLoop cfg counts k s total info = none := by
  induction k with
  | zero =>
    intro s total info h
    obtain ⟨j, h1, h2, _⟩ := h
    omega
  | succ k ih =>
    intro s total info h
    obtain ⟨j, h1, h2, h3, h4⟩ := h
    unfold ANSBuildInfoTableLoop
    simp only []
    rw [if_pos hu]
    by_cases hjs : j = s
    · subst hjs
      rw [if_pos h3, if_pos h4]
    · have hex : ∃ j, s + 1 ≤ j ∧ j < s + 1 + k ∧ toUint 32 (counts j) ≠ 0 ∧
          toUint cfg.field_bits (counts j) = 0 := ⟨j, by omega, by omega, h3, h4⟩
      by_cases hf : toUint 32 (counts s) ≠ 0
      · rw [if_pos hf]
        by_cases hz : toUint cfg.field_bits (counts s) = 0
        · rw [if_pos hz]
        · rw [if_neg hz]
          exact ih _ _ _ hex
      · rw [if_neg hf]
        exact ih _ _ _ hex

/-- Whenever `ANSBuildInfoTable` returns, it returns the closed form. -/
theorem ANSBuildInfoTable_eq_some (cfg : ANSConfig) (counts : Nat → Int)
    (alphabet_size : Nat) (info tbl : Nat → ANSEncSymbolInfo)
    (hW : cfg.field_bits ≤ 32)
    (h : ANSBuildInfoTable cfg counts alphabet_size info = some tbl) :
    tbl = fun j => if j < alphabet_size then entryOf cfg counts (info j) j
      else info j := by
  by_cases hd : ∀ j, j < alphabet_size → cfg.USE_MULT_BY_RECIPROCAL = true →
      toUint 32 (counts j) ≠ 0 → toUint cfg.field_bits (counts j) ≠ 0
  · rw [ANSBuildInfoTable_spec cfg counts alphabet_size info hW hd] at h
    exact (Option.some.inj h).symm
  · push_neg at hd
    obtain ⟨j, h1, hu, h3, h4⟩ := hd
    have hn := ANSBuildInfoTableLoop_none cfg counts hu alphabet_size 0 0 info
      ⟨j, Nat.zero_le _, by omega, h3, h4⟩
    unfold ANSBuildInfoTable at h
    rw [hn] at h
    exact absurd h (by simp)

/-- Counts that fit the `freq_` field never give a zero divisor. -/
theorem no_zero_divisor_of_fit (cfg : ANSConfig) (counts : Nat → Int)
    (alphabet_size : Nat)
    (hc : ∀ j, j < alphabet_size → 0 ≤ counts j ∧ counts j < 2 ^ cfg.field_bits) :
    ∀ j, j < alphabet_size → cfg.USE_MULT_BY_RECIPROCAL = true →
      toUint 32 (counts j) ≠ 0 → toUint cfg.field_bits (counts j) ≠ 0 := by
  intro j hj _ h32 hz
  apply h32
  have h1 := toUint_of_lt cfg.field_bits (counts j) (hc j hj).1 (hc j hj).2
  rw [hz] at h1
  have h0 : counts j = 0 := by simpa using h1.symm
  simp [h0, toUint]

theorem cumulative_nonneg (counts : Nat → Int) (n s : Nat) (hs : s ≤ n)
    (hnn : ∀ j, j < n → 0 ≤ counts j) : 0 ≤ cumulative counts s := by
  unfold cumulative
  apply Finset.sum_nonneg
  intro j hj
  exact hnn j (by have := Finset.mem_range.mp hj; omega)

theorem cumulative_mono (counts : Nat → Int) (n : Nat)
    (hnn : ∀ j, j < n → 0 ≤ counts j) (a b : Nat) (hab : a ≤ b) (hb : b ≤ n) :
    cumulative counts a ≤ cumulative counts b := by
  induction b with
  | zero =>
    have : a = 0 := by omega
    rw [this]
  | succ b ih =>
    by_cases h : a = b + 1
    · rw [h]
    · have h1 := ih (by omega) (by omega)
      rw [cumulative_succ]
      have h2 := hnn b (by omega)
      omega

theorem count_le_cumulative (counts : Nat → Int) (n : Nat)
    (hnn : ∀ j, j < n → 0 ≤ counts j) (s : Nat) (hs : s < n) :
    counts s ≤ cumulative counts n := by
  have h1 := cumulative_mono counts n hnn (s + 1) n (by omega) (le_refl _)
  have h2 := cumulative_nonneg counts n s (by omega) hnn
  rw [cumulative_succ] at h1
  omega

/-- The table built from non-negative counts whose total fits the fields:
it is returned, `freq_` is the count and `start_` is the prefix sum. -/
theorem ANSBuildInfoTable_valid (cfg : ANSConfig) (counts : Nat → Int)
    (alphabet_size : Nat) (info : Nat → ANSEncSymbolInfo)
    (hW : cfg.field_bits ≤ 32)
    (hnn : ∀ j, j < alphabet_size → 0 ≤ counts j)
    (hfit : cumulative counts alphabet_size < 2 ^ cfg.field_bits) :
    ∃ tbl, ANSBuildInfoTable cfg counts alphabet_size info = some tbl ∧
      (∀ s, s < alphabet_size → tbl s = entryOf cfg counts (info s) s) ∧
      ∀ s, s < alphabet_size → ((tbl s).freq_ : Int) = counts s ∧
        ((tbl s).start_ : Int) = cumulative counts s := by
  have hc : ∀ j, j < alphabet_size → 0 ≤ counts j ∧ counts j < 2 ^ cfg.field_bits :=
    fun j hj => ⟨hnn j hj, lt_of_le_of_lt (count_le_cumulative counts _ hnn j hj) hfit⟩
  refine ⟨_, ANSBuildInfoTable_spec cfg counts alphabet_size info hW
    (no_zero_divisor_of_fit cfg counts alphabet_size hc), ?_, ?_⟩
  · intro s hs
    simp [hs]
  · intro s hs
    simp only [hs, if_true]
    constructor
    · exact toUint_of_lt _ _ (hc s hs).1 (hc s hs).2
    · exact toUint_of_lt _ _ (cumulative_nonneg counts alphabet_size s (by omega) hnn)
        (lt_of_le_of_lt (cumulative_mono counts alphabet_size hnn s alphabet_size
          (by omega) (le_refl _)) hfit)

/-- Above the written bits and above the first byte the word is zero. -/
theorem wordOf_high (n v : Nat) (st : BitStorage) (hv : v < 2 ^ n) (t : Nat)
    (h8 : 8 ≤ t) (hnr : (st.pos &&& 7) + n ≤ t) (ht : t < 64) :
    (wordOf v st).testBit t = false := by
  rw [wordOf_testBit v st t ht, byte_testBit_ge _ _ h8]
  have hvb : v.testBit (t - (st.pos &&& 7)) = false := by
    apply Nat.testBit_lt_two_pow
    calc v < 2 ^ n := hv
      _ ≤ 2 ^ (t - (st.pos &&& 7)) := Nat.pow_le_pow_right (by decide) (by omega)
  simp [hvb]

theorem wordOf_high_byte (n v : Nat) (st : BitStorage) (hv : v < 2 ^ n) (k : Nat)
    (hk : rounds n st.pos + 1 ≤ k) (hk7 : k ≤ 7) :
    toU8 (wordOf v st >>> (8 * k)) = 0 := by
  apply byte_ext
  intro b hb
  rw [toU8_testBit, Nat.testBit_shiftRight,
    wordOf_high n v st hv (8 * k + b) (by omega)
      (by unfold rounds at hk; omega) (by omega)]
  simp

/-! ## Bit writer: the properties -/

/-- C1: for a width `n <= 56`, a value `v < 2^n` and a cursor whose byte has no
bit set at or above `pos & 7`, after `WriteBits` every stream bit `pos + i`
with `i < n` equals bit `i` of `v`; on the little-endian branch (`le = true`)
and on the byte-by-byte branch (`le = false`). -/
theorem WriteBits_writes_value_bits (le : Bool) (n v : Nat) (st : BitStorage)
    (hn : n ≤ 56) (_hv : v < 2 ^ n) (hz : ZeroTail st.array st.pos) :
    ∀ i, i < n → streamBit (WriteBits le n v st).array (st.pos + i) = v.testBit i :=
  fun i hi => WriteBits_bits_written le n v st hn hz i hi

/-- Instance of C1: 13 bits of 5000 written at bit 3 on the byte-by-byte
branch. -/
theorem WriteBits_writes_value_bits_witness :
    13 ≤ 56 ∧ 5000 < 2 ^ 13 ∧ ZeroTail staleBufferOneBit 3 ∧
    ∀ i, i < 13 →
      streamBit (WriteBits false 13 5000 ⟨3, staleBufferOneBit⟩).array (3 + i) =
        Nat.testBit 5000 i :=
  ⟨by decide, by decide, by decide,
    WriteBits_writes_value_bits false 13 5000 ⟨3, staleBufferOneBit⟩
      (by decide) (by decide) (by decide)⟩

/-- C2: starting at a byte-aligned cursor whose byte `WriteBitsPrepareStorage`
has zeroed, a run of `WriteBits` calls on pairs `(n_k, v_k)` with `n_k <= 56`
and `v_k < 2^n_k` ends with the cursor advanced by the total width and with the
stream bits from the starting cursor on equal to the concatenation of the low
bits of the values, on either branch; and every byte up to the byte of the
final cursor is the same on both branches. -/
theorem WriteBitsSeq_concat (pairs : List (Nat × Nat)) (pos : Nat) (array : Buffer)
    (hp : ∀ p ∈ pairs, p.1 ≤ 56 ∧ p.2 < 2 ^ p.1) (_ha : pos &&& 7 = 0) :
    (∀ le : Bool,
      (WriteBitsSeq le pairs ⟨pos, WriteBitsPrepareStorage pos array⟩).pos =
        pos + (concatBits pairs).length ∧
      ∀ i, i < (concatBits pairs).length →
        (concatBits pairs)[i]? = some (streamBit
          (WriteBitsSeq le pairs ⟨pos, WriteBitsPrepareStorage pos array⟩).array
          (pos + i))) ∧
    ∀ j, j ≤ (pos + (concatBits pairs).length) >>> 3 →
      (WriteBitsSeq true pairs ⟨pos, WriteBitsPrepareStorage pos array⟩).array j =
      (WriteBitsSeq false pairs ⟨pos, WriteBitsPrepareStorage pos array⟩).array j := by
  have inv := fun le => WriteBitsSeq_invariant le pairs
    ⟨pos, WriteBitsPrepareStorage pos array⟩ hp (zeroTail_prepare pos array)
  refine ⟨fun le => ⟨(inv le).1, (inv le).2.2.2⟩, ?_⟩
  intro j hj
  rw [shiftRight_three] at hj
  apply byte_ext
  intro k hk
  have hq8 : (8 * j + k) / 8 = j := by omega
  have hm8 : (8 * j + k) % 8 = k := by omega
  have hbit : ∀ le : Bool,
      ((WriteBitsSeq le pairs ⟨pos, WriteBitsPrepareStorage pos array⟩).array j).val.testBit k
        = streamBit
          (WriteBitsSeq le pairs ⟨pos, WriteBitsPrepareStorage pos array⟩).array
          (8 * j + k) := by
    intro le
    rw [streamBit_eq, hq8, hm8]
  rw [hbit true, hbit false]
  obtain ⟨t1, t2, t3, t4⟩ := inv true
  obtain ⟨f1, f2, f3, f4⟩ := inv false
  simp only at t1 t2 t3 t4 f1 f2 f3 f4
  by_cases hlow : 8 * j + k < pos
  · rw [t3 _ hlow, f3 _ hlow]
  · by_cases hmid : 8 * j + k < pos + (concatBits pairs).length
    · have ht := t4 (8 * j + k - pos) (by omega)
      have hf := f4 (8 * j + k - pos) (by omega)
      have he : pos + (8 * j + k - pos) = 8 * j + k := by omega
      rw [he] at ht hf
      rw [ht] at hf
      exact Option.some.inj hf
    · rw [streamBit_eq, streamBit_eq, hq8, hm8]
      have hj' : j = (pos + (concatBits pairs).length) / 8 := by omega
      have hk' : (pos + (concatBits pairs).length) % 8 ≤ k := by omega
      rw [t1] at t2
      rw [f1] at f2
      have ht := t2 k hk (by rw [and_seven]; exact hk')
      have hf := f2 k hk (by rw [and_seven]; exact hk')
      rw [shiftRight_three, ← hj'] at ht hf
      rw [ht, hf]

/-- Instance of C2: four writes, one of width 0, from bit 16 of a stale
buffer. -/
theorem WriteBitsSeq_concat_witness :
    (∀ p ∈ [((3 : Nat), (5 : Nat)), (13, 5000), (0, 0), (8, 255)],
      p.1 ≤ 56 ∧ p.2 < 2 ^ p.1) ∧ 16 &&& 7 = 0 ∧
    ((∀ le : Bool,
      (WriteBitsSeq le [(3, 5), (13, 5000), (0, 0), (8, 255)]
        ⟨16, WriteBitsPrepareStorage 16 staleBuffer⟩).pos =
        16 + (concatBits [(3, 5), (13, 5000), (0, 0), (8, 255)]).length ∧
      ∀ i, i < (concatBits [(3, 5), (13, 5000), (0, 0), (8, 255)]).length →
        (concatBits [(3, 5), (13, 5000), (0, 0), (8, 255)])[i]? = some (streamBit
          (WriteBitsSeq le [(3, 5), (13, 5000), (0, 0), (8, 255)]
            ⟨16, WriteBitsPrepareStorage 16 staleBuffer⟩).array
          (16 + i))) ∧
    ∀ j, j ≤ (16 + (concatBits [(3, 5), (13, 5000), (0, 0), (8, 255)]).length) >>> 3 →
      (WriteBitsSeq true [(3, 5), (13, 5000), (0, 0), (8, 255)]
        ⟨16, WriteBitsPrepareStorage 16 staleBuffer⟩).array j =
      (WriteBitsSeq false [(3, 5), (13, 5000), (0, 0), (8, 255)]
        ⟨16, WriteBitsPrepareStorage 16 staleBuffer⟩).array j) :=
  ⟨by decide, by decide,
    WriteBitsSeq_concat [(3, 5), (13, 5000), (0, 0), (8, 255)] 16 staleBuffer
      (by decide) (by decide)⟩

/-- C3, as stated, fails: one bit written at bit 0 of a buffer whose later
bytes hold stale data.  The little-endian branch stores eight bytes and so
clears byte 2; the byte-by-byte branch stores byte 0, zeroes byte 1 and leaves
byte 2 alone. -/
theorem WriteBits_paths_differ :
    1 ≤ 56 ∧ 1 < 2 ^ 1 ∧
    WriteBits true 1 1 ⟨0, staleBuffer⟩ ≠ WriteBits false 1 1 ⟨0, staleBuffer⟩ := by
  refine ⟨by decide, by decide, ?_⟩
  intro h
  have h2 : ((WriteBits true 1 1 ⟨0, staleBuffer⟩).array 2).val =
      ((WriteBits false 1 1 ⟨0, staleBuffer⟩).array 2).val := by rw [h]
  revert h2
  decide

/-- C3, amended: for `n <= 56` and `v < 2^n` the two branches leave the cursor
at the same value and the same byte at every index `j` that is at most
`(pos >> 3) + rounds + 1` and at most `(pos >> 3) + 7` (the bytes that receive
bits and the byte after them), or lies beyond `(pos >> 3) + 8`, or held zero
before the call.  Here `rounds = (n + (pos & 7) - 1) / 8`. -/
theorem WriteBits_paths_agree (n v : Nat) (st : BitStorage)
    (hn : n ≤ 56) (hv : v < 2 ^ n) :
    (WriteBits true n v st).pos = (WriteBits false n v st).pos ∧
    ∀ j, ((j ≤ st.pos >>> 3 + rounds n st.pos + 1 ∧ j ≤ st.pos >>> 3 + 7) ∨
          st.pos >>> 3 + 8 < j ∨ st.array j = 0) →
      (WriteBits true n v st).array j = (WriteBits false n v st).array j := by
  refine ⟨rfl, ?_⟩
  intro j hj
  have hr := rounds_le n st.pos hn
  simp only [WriteBits, if_true, Bool.false_eq_true, if_false]
  rw [WriteBitsLittleEndian_array, WriteBitsBytewise_array]
  by_cases hwin : st.pos >>> 3 ≤ j ∧ j < st.pos >>> 3 + 8
  · rw [if_pos hwin]
    by_cases hnext : j = st.pos >>> 3 + rounds n st.pos + 1
    · rw [if_pos hnext]
      exact wordOf_high_byte n v st hv _ (by omega) (by omega)
    · rw [if_neg hnext]
      by_cases hin : st.pos >>> 3 ≤ j ∧ j ≤ st.pos >>> 3 + rounds n st.pos
      · rw [if_pos hin]
      · rw [if_neg hin]
        have h0 : st.array j = 0 := by
          rcases hj with h | h | h
          · omega
          · omega
          · exact h
        rw [h0]
        exact wordOf_high_byte n v st hv _ (by omega) (by omega)
  · rw [if_neg hwin]
    by_cases hnext : j = st.pos >>> 3 + rounds n st.pos + 1
    · rw [if_pos hnext]
      rcases hj with h | h | h
      · omega
      · omega
      · exact h
    · rw [if_neg hnext, if_neg (by omega)]

/-- Instance of the amended C3: 13 bits of 5000 written at bit 3. -/
theorem WriteBits_paths_agree_witness :
    13 ≤ 56 ∧ 5000 < 2 ^ 13 ∧
    ((WriteBits true 13 5000 ⟨3, staleBufferOneBit⟩).pos =
      (WriteBits false 13 5000 ⟨3, staleBufferOneBit⟩).pos ∧
    ∀ j, ((j ≤ 3 >>> 3 + rounds 13 3 + 1 ∧ j ≤ 3 >>> 3 + 7) ∨
          3 >>> 3 + 8 < j ∨ staleBufferOneBit j = 0) →
      (WriteBits true 13 5000 ⟨3, staleBufferOneBit⟩).array j =
        (WriteBits false 13 5000 ⟨3, staleBufferOneBit⟩).array j) :=
  ⟨by decide, by decide,
    WriteBits_paths_agree 13 5000 ⟨3, staleBufferOneBit⟩ (by decide) (by decide)⟩

/-- Without wraparound the stored cursor is the `pos` field of `WriteBits`. -/
theorem WriteBitsCursor_eq_pos (le : Bool) (n v : Nat) (st : BitStorage)
    (h : st.pos + n < 2 ^ 64) :
    WriteBitsCursor le n v st = (WriteBits le n v st).pos := by
  unfold WriteBitsCursor toSizeT
  rw [WriteBits_pos]
  exact Nat.mod_eq_of_lt h

/-- C9, as stated, fails: the width `n = 2^64 - 1` and the cursor `pos = 8` are
both values of `size_t`, and on the little-endian branch `*pos += n_bits` wraps
and leaves the cursor at 7, which is not `pos + n` and lies before `pos`. -/
theorem WriteBits_cursor_wraps :
    2 ^ 64 - 1 < 2 ^ 64 ∧ 8 < 2 ^ 64 ∧
    WriteBitsCursor true (2 ^ 64 - 1) 0 ⟨8, staleBuffer⟩ = 7 ∧
    WriteBitsCursor true (2 ^ 64 - 1) 0 ⟨8, staleBuffer⟩ ≠ 8 + (2 ^ 64 - 1) ∧
    ¬ (8 ≤ WriteBitsCursor true (2 ^ 64 - 1) 0 ⟨8, staleBuffer⟩) := by
  decide

/-- C9, amended: for every buffer, cursor `pos`, width `n` and value `v` with
`pos + n < 2^64`, and no other condition on `n` or `v`, `WriteBits` leaves the
cursor at `pos + n` on both branches; so under that condition the cursor does
not move backward. -/
theorem WriteBits_cursor_advances (le : Bool) (n v : Nat) (st : BitStorage)
    (h : st.pos + n < 2 ^ 64) :
    WriteBitsCursor le n v st = st.pos + n ∧ st.pos ≤ WriteBitsCursor le n v st := by
  rw [WriteBitsCursor_eq_pos le n v st h, WriteBits_pos]
  exact ⟨rfl, Nat.le_add_right _ _⟩

/-- Instance of the amended C9: width 100, above 56, with a value of 64 set
bits, at bit 3 on the byte-by-byte branch. -/
theorem WriteBits_cursor_advances_witness :
    3 + 100 < 2 ^ 64 ∧
    (WriteBitsCursor false 100 (2 ^ 64 - 1) ⟨3, staleBufferOneBit⟩ = 3 + 100 ∧
    3 ≤ WriteBitsCursor false 100 (2 ^ 64 - 1) ⟨3, staleBufferOneBit⟩) :=
  ⟨by decide,
    WriteBits_cursor_advances false 100 (2 ^ 64 - 1) ⟨3, staleBufferOneBit⟩ (by decide)⟩

/-- C10, as stated, fails on the byte-by-byte branch: 56 bits written at bit 1
make the loop run 7 rounds, and the store after the loop zeroes the byte at
index `(pos >> 3) + 8`, which held `0xAA`. -/
theorem WriteBits_bytewise_ninth_byte :
    56 ≤ 56 ∧ ¬ FrameWithinEight false 56 0 ⟨1, staleBufferOneBit⟩ := by
  refine ⟨by decide, ?_⟩
  intro h
  have h8 := h 8 (Or.inr (by decide))
  have h9 : ((WriteBits false 56 0 ⟨1, staleBufferOneBit⟩).array 8).val =
      (staleBufferOneBit 8).val := by rw [h8]
  revert h9
  decide

/-- C10, amended: for `n <= 56` and every value `v` (reduced to 64 bits by the
parameter type), the little-endian branch changes no byte outside the 8 bytes
at `(pos >> 3) .. (pos >> 3) + 7`; the byte-by-byte branch changes no byte
outside the 9 bytes at `(pos >> 3) .. (pos >> 3) + 8`, and none outside the
first 8 of them when `n + (pos & 7) <= 56`. -/
theorem WriteBits_frame_windows (n v : Nat) (st : BitStorage) (hn : n ≤ 56) :
    FrameWithinEight true n v st ∧
    (n + (st.pos &&& 7) ≤ 56 → FrameWithinEight false n v st) ∧
    ∀ j, (j < st.pos >>> 3 ∨ st.pos >>> 3 + 9 ≤ j) →
      (WriteBits false n v st).array j = st.array j := by
  have hr := rounds_le n st.pos hn
  refine ⟨?_, ?_, ?_⟩
  · intro j hj
    exact WriteBits_frame true n v st j (by simpa using hj)
  · intro h56 j hj
    have hr6 : rounds n st.pos ≤ 6 := by unfold rounds; omega
    apply WriteBits_frame false n v st j
    rcases hj with h | h
    · exact Or.inl h
    · right
      simp only [Bool.false_eq_true, if_false]
      omega
  · intro j hj
    apply WriteBits_frame false n v st j
    rcases hj with h | h
    · exact Or.inl h
    · right
      simp only [Bool.false_eq_true, if_false]
      omega

/-- Instance of the amended C10: width 8 with a value of 64 set bits, wider
than the width, written at bit 1. -/
theorem WriteBits_frame_windows_witness :
    8 ≤ 56 ∧
    (FrameWithinEight true 8 (2 ^ 64 - 1) ⟨1, staleBufferOneBit⟩ ∧
    (8 + (1 &&& 7) ≤ 56 → FrameWithinEight false 8 (2 ^ 64 - 1) ⟨1, staleBufferOneBit⟩) ∧
    ∀ j, (j < 1 >>> 3 ∨ 1 >>> 3 + 9 ≤ j) →
      (WriteBits false 8 (2 ^ 64 - 1) ⟨1, staleBufferOneBit⟩).array j =
        staleBufferOneBit j) :=
  ⟨by decide, WriteBits_frame_windows 8 (2 ^ 64 - 1) ⟨1, staleBufferOneBit⟩ (by decide)⟩

/-! ## ANS encode table: the properties -/

theorem toUint_lt (w : Nat) (x : Int) : toUint w x < 2 ^ w := by
  have h1 := toUint_cast w x
  have h2 : x % 2 ^ w < 2 ^ w := Int.emod_lt_of_pos _ (by positivity)
  have h3 : ((toUint w x : Nat) : Int) < ((2 ^ w : Nat) : Int) := by
    rw [h1]; exact_mod_cast h2
  exact_mod_cast h3

/-- A count whose `freq_` field is nonzero passes the guard `freq != 0`. -/
theorem guard_of_field_pos (w : Nat) (hw : w ≤ 32) (c : Int) (hf : 0 < toUint w c) :
    toUint 32 c ≠ 0 := by
  intro h0
  have h1 := toUint_modEq 32 c
  rw [h0] at h1
  have h2 : toUint w c = toUint w 0 := toUint_congr w _ _ (modEq_narrow w hw _ _ h1.symm)
  have h3 : toUint w 0 = 0 := by simp [toUint]
  omega

/-- Without wraparound the reciprocal expression is the rounded-up quotient. -/
theorem reciprocal_eq (P f : Nat) (hP : P < 64) (hf : f < 2 ^ 32) :
    reciprocal P f = (2 ^ P + f - 1) / f := by
  unfold reciprocal
  have hp63 : 2 ^ P ≤ 2 ^ 63 := Nat.pow_le_pow_right (by decide) (by omega)
  have h1 : (1 <<< P) % 2 ^ 64 = 2 ^ P := by
    rw [Nat.one_shiftLeft]
    exact Nat.mod_eq_of_lt (by omega)
  rw [h1, Nat.mod_eq_of_lt (by omega)]

/-- The `ifreq_` field written for a symbol whose `freq_` field is nonzero. -/
theorem entryOf_ifreq (cfg : ANSConfig) (counts : Nat → Int) (old : ANSEncSymbolInfo)
    (s : Nat) (hu : cfg.USE_MULT_BY_RECIPROCAL = true) (hW : cfg.field_bits ≤ 32)
    (hP : cfg.RECIPROCAL_PRECISION < 64)
    (hI : cfg.RECIPROCAL_PRECISION < cfg.ifreq_bits)
    (hf : 0 < (entryOf cfg counts old s).freq_) :
    (entryOf cfg counts old s).ifreq_ =
      (2 ^ cfg.RECIPROCAL_PRECISION + (entryOf cfg counts old s).freq_ - 1) /
        (entryOf cfg counts old s).freq_ := by
  have hg := guard_of_field_pos cfg.field_bits hW (counts s) hf
  have hlt : toUint cfg.field_bits (counts s) < 2 ^ 32 :=
    lt_of_lt_of_le (toUint_lt _ _) (Nat.pow_le_pow_right (by decide) hW)
  have hf' : 0 < toUint cfg.field_bits (counts s) := hf
  simp only [entryOf, hu, hg, if_true, ne_eq, not_false_eq_true]
  rw [reciprocal_eq _ _ hP hlt]
  apply Nat.mod_eq_of_lt
  have h1 : (2 ^ cfg.RECIPROCAL_PRECISION + toUint cfg.field_bits (counts s) - 1) /
      toUint cfg.field_bits (counts s) ≤ 2 ^ cfg.RECIPROCAL_PRECISION :=
    ceilDiv_least _ _ _ hf' (Nat.le_mul_of_pos_right _ hf')
  exact lt_of_le_of_lt h1 (Nat.pow_lt_pow_right (by decide) hI)

/-- C4: for counts that are non-negative below `alphabet_size` and whose total
fits the width of the `freq_`/`start_` fields (fields of at most 32 bits),
`ANSBuildInfoTable` returns a table with `freq_ = counts[s]` and
`start_ = counts[0] + ... + counts[s-1]` for every `s < alphabet_size`. -/
theorem ANSBuildInfoTable_freq_start (cfg : ANSConfig) (counts : Nat → Int)
    (alphabet_size : Nat) (info : Nat → ANSEncSymbolInfo)
    (hW : cfg.field_bits ≤ 32)
    (hnn : ∀ j, j < alphabet_size → 0 ≤ counts j)
    (hfit : ∑ j in Finset.range alphabet_size, counts j < 2 ^ cfg.field_bits) :
    ∃ tbl, ANSBuildInfoTable cfg counts alphabet_size info = some tbl ∧
      ∀ s, s < alphabet_size →
        ((tbl s).freq_ : Int) = counts s ∧
        ((tbl s).start_ : Int) = ∑ j in Finset.range s, counts j := by
  obtain ⟨tbl, h1, _, h3⟩ :=
    ANSBuildInfoTable_valid cfg counts alphabet_size info hW hnn hfit
  exact ⟨tbl, h1, h3⟩

/-- Instance of C4: the counts 3, 5, 0, 8 with 16-bit fields. -/
theorem ANSBuildInfoTable_freq_start_witness :
    sampleConfig.field_bits ≤ 32 ∧
    (∀ j, j < 4 → 0 ≤ sampleCounts j) ∧
    ∑ j in Finset.range 4, sampleCounts j < 2 ^ sampleConfig.field_bits ∧
    ∃ tbl, ANSBuildInfoTable sampleConfig sampleCounts 4 zeroInfo = some tbl ∧
      ∀ s, s < 4 →
        ((tbl s).freq_ : Int) = sampleCounts s ∧
        ((tbl s).start_ : Int) = ∑ j in Finset.range s, sampleCounts j :=
  ⟨by decide, by decide, by decide,
    ANSBuildInfoTable_freq_start sampleConfig sampleCounts 4 zeroInfo
      (by decide) (by decide) (by decide)⟩

/-- Every point below the total lies in the interval of some symbol. -/
theorem interval_exists (counts : Nat → Int) (x : Int) (h0 : 0 ≤ x) (n : Nat) :
    x < cumulative counts n →
      ∃ s, s < n ∧ cumulative counts s ≤ x ∧ x < cumulative counts (s + 1) := by
  induction n with
  | zero =>
    intro hx
    simp [cumulative] at hx
    omega
  | succ n ih =>
    intro hx
    by_cases h : x < cumulative counts n
    · obtain ⟨s, h1, h2, h3⟩ := ih h
      exact ⟨s, by omega, h2, h3⟩
    · exact ⟨n, by omega, by omega, hx⟩

/-- C5: for non-negative counts that sum to `table_size` (which fits the
`freq_`/`start_` fields, of at most 32 bits) and a non-empty alphabet, the
table built by `ANSBuildInfoTable` has `start[0] = 0`,
`start[s] + freq[s] = start[s+1]` whenever `s + 1 < alphabet_size`, and
`start[last] + freq[last] = table_size`. -/
theorem ANSBuildInfoTable_consistent (cfg : ANSConfig) (counts : Nat → Int)
    (alphabet_size : Nat) (info : Nat → ANSEncSymbolInfo) (table_size : Nat)
    (hW : cfg.field_bits ≤ 32) (hn : 0 < alphabet_size)
    (hnn : ∀ j, j < alphabet_size → 0 ≤ counts j)
    (hsum : ∑ j in Finset.range alphabet_size, counts j = table_size)
    (hT : table_size < 2 ^ cfg.field_bits) :
    ∃ tbl, ANSBuildInfoTable cfg counts alphabet_size info = some tbl ∧
      (tbl 0).start_ = 0 ∧
      (∀ s, s + 1 < alphabet_size →
        (tbl s).start_ + (tbl s).freq_ = (tbl (s + 1)).start_) ∧
      (tbl (alphabet_size - 1)).start_ + (tbl (alphabet_size - 1)).freq_ =
        table_size := by
  have hfit : cumulative counts alphabet_size < 2 ^ cfg.field_bits := by
    unfold cumulative; rw [hsum]; exact_mod_cast hT
  obtain ⟨tbl, h1, _, h3⟩ :=
    ANSBuildInfoTable_valid cfg counts alphabet_size info hW hnn hfit
  refine ⟨tbl, h1, ?_, ?_, ?_⟩
  · have h := (h3 0 hn).2
    simp [cumulative] at h
    exact h
  · intro s hs
    have ha := h3 s (by omega)
    have hb := (h3 (s + 1) hs).2
    rw [cumulative_succ] at hb
    omega
  · have ha := h3 (alphabet_size - 1) (by omega)
    have hb : cumulative counts (alphabet_size - 1 + 1) = table_size := by
      rw [Nat.sub_add_cancel hn]; exact hsum
    rw [cumulative_succ] at hb
    omega

/-- Instance of C5: the counts 3, 5, 0, 8, which sum to 16. -/
theorem ANSBuildInfoTable_consistent_witness :
    sampleConfig.field_bits ≤ 32 ∧ 0 < 4 ∧
    (∀ j, j < 4 → 0 ≤ sampleCounts j) ∧
    ∑ j in Finset.range 4, sampleCounts j = (16 : Nat) ∧
    16 < 2 ^ sampleConfig.field_bits ∧
    ∃ tbl, ANSBuildInfoTable sampleConfig sampleCounts 4 zeroInfo = some tbl ∧
      (tbl 0).start_ = 0 ∧
      (∀ s, s + 1 < 4 → (tbl s).start_ + (tbl s).freq_ = (tbl (s + 1)).start_) ∧
      (tbl (4 - 1)).start_ + (tbl (4 - 1)).freq_ = 16 :=
  ⟨by decide, by decide, by decide, by decide, by decide,
    ANSBuildInfoTable_consistent sampleConfig sampleCounts 4 zeroInfo 16
      (by decide) (by decide) (by decide) (by decide) (by decide)⟩

/-- C6: for non-negative counts that sum to `table_size` (which fits the
fields), the intervals `[start[s], start[s] + freq[s])` of the table partition
`[0, table_size)`: every `x < table_size` lies in the interval of exactly one
symbol `s < alphabet_size`, and a symbol whose interval holds `x` has
`freq[s] > 0`. -/
theorem ANSBuildInfoTable_partition (cfg : ANSConfig) (counts : Nat → Int)
    (alphabet_size : Nat) (info : Nat → ANSEncSymbolInfo) (table_size : Nat)
    (hW : cfg.field_bits ≤ 32)
    (hnn : ∀ j, j < alphabet_size → 0 ≤ counts j)
    (hsum : ∑ j in Finset.range alphabet_size, counts j = table_size)
    (hT : table_size < 2 ^ cfg.field_bits) :
    ∃ tbl, ANSBuildInfoTable cfg counts alphabet_size info = some tbl ∧
      ∀ x, x < table_size →
        (∃! s, s < alphabet_size ∧ (tbl s).start_ ≤ x ∧
          x < (tbl s).start_ + (tbl s).freq_) ∧
        ∀ s, s < alphabet_size → (tbl s).start_ ≤ x →
          x < (tbl s).start_ + (tbl s).freq_ → 0 < (tbl s).freq_ := by
  have hfit : cumulative counts alphabet_size < 2 ^ cfg.field_bits := by
    unfold cumulative; rw [hsum]; exact_mod_cast hT
  obtain ⟨tbl, h1, _, h3⟩ :=
    ANSBuildInfoTable_valid cfg counts alphabet_size info hW hnn hfit
  refine ⟨tbl, h1, ?_⟩
  intro x hx
  have hxT : (x : Int) < cumulative counts alphabet_size := by
    unfold cumulative; rw [hsum]; exact_mod_cast hx
  refine ⟨?_, fun s _ ha hb => by omega⟩
  obtain ⟨s, hs, hlo, hhi⟩ :=
    interval_exists counts x (by omega) alphabet_size hxT
  rw [cumulative_succ] at hhi
  have hs3 := h3 s hs
  refine ⟨s, ⟨hs, by omega, by omega⟩, ?_⟩
  rintro t ⟨ht, htlo, hthi⟩
  have ht3 := h3 t ht
  by_contra hne
  rcases Nat.lt_or_gt_of_ne hne with hlt | hgt
  · have hm := cumulative_mono counts alphabet_size hnn (t + 1) s (by omega) (by omega)
    rw [cumulative_succ] at hm
    omega
  · have hm := cumulative_mono counts alphabet_size hnn (s + 1) t (by omega) (by omega)
    rw [cumulative_succ] at hm
    omega

/-- Instance of C6: the counts 3, 5, 0, 8, which sum to 16. -/
theorem ANSBuildInfoTable_partition_witness :
    sampleConfig.field_bits ≤ 32 ∧
    (∀ j, j < 4 → 0 ≤ sampleCounts j) ∧
    ∑ j in Finset.range 4, sampleCounts j = (16 : Nat) ∧
    16 < 2 ^ sampleConfig.field_bits ∧
    ∃ tbl, ANSBuildInfoTable sampleConfig sampleCounts 4 zeroInfo = some tbl ∧
      ∀ x, x < 16 →
        (∃! s, s < 4 ∧ (tbl s).start_ ≤ x ∧ x < (tbl s).start_ + (tbl s).freq_) ∧
        ∀ s, s < 4 → (tbl s).start_ ≤ x →
          x < (tbl s).start_ + (tbl s).freq_ → 0 < (tbl s).freq_ :=
  ⟨by decide, by decide, by decide, by decide,
    ANSBuildInfoTable_partition sampleConfig sampleCounts 4 zeroInfo 16
      (by decide) (by decide) (by decide) (by decide)⟩

/-- C7: with `USE_MULT_BY_RECIPROCAL` defined, fields of at most 32 bits, and a
precision `P = RECIPROCAL_PRECISION` below 64 and below the width of `ifreq_`:
whenever `ANSBuildInfoTable` returns a table, every symbol `s` with
`freq[s] > 0` has `ifreq[s] = ceil(2^P / freq[s])`, which is the least `m` with
`m * freq[s] >= 2^P`; and the function does return a table for counts in the
range of the `freq_` field. -/
theorem ANSBuildInfoTable_ifreq_ceil (cfg : ANSConfig) (counts : Nat → Int)
    (alphabet_size : Nat) (info : Nat → ANSEncSymbolInfo)
    (hu : cfg.USE_MULT_BY_RECIPROCAL = true) (hW : cfg.field_bits ≤ 32)
    (hP : cfg.RECIPROCAL_PRECISION < 64)
    (hI : cfg.RECIPROCAL_PRECISION < cfg.ifreq_bits) :
    (∀ tbl, ANSBuildInfoTable cfg counts alphabet_size info = some tbl →
      ∀ s, s < alphabet_size → 0 < (tbl s).freq_ →
        (tbl s).ifreq_ =
          ⌈(2 : ℚ) ^ cfg.RECIPROCAL_PRECISION / ((tbl s).freq_ : ℚ)⌉₊ ∧
        2 ^ cfg.RECIPROCAL_PRECISION ≤ (tbl s).ifreq_ * (tbl s).freq_ ∧
        ∀ m, 2 ^ cfg.RECIPROCAL_PRECISION ≤ m * (tbl s).freq_ → (tbl s).ifreq_ ≤ m) ∧
    ((∀ j, j < alphabet_size → 0 ≤ counts j ∧ counts j < 2 ^ cfg.field_bits) →
      ∃ tbl, ANSBuildInfoTable cfg counts alphabet_size info = some tbl) := by
  constructor
  · intro tbl htbl s hs hf
    have hform := ANSBuildInfoTable_eq_some cfg counts alphabet_size info tbl hW htbl
    have hent : tbl s = entryOf cfg counts (info s) s := by
      rw [hform]; simp [hs]
    rw [hent] at hf ⊢
    have hi := entryOf_ifreq cfg counts (info s) s hu hW hP hI hf
    rw [hi]
    refine ⟨?_, ceilDiv_mul_ge _ _ hf, fun m hm => ceilDiv_least _ _ m hf hm⟩
    have hc := ceilDiv_eq_ceil (2 ^ cfg.RECIPROCAL_PRECISION)
      (entryOf cfg counts (info s) s).freq_ hf (by positivity)
    rw [hc]
    push_cast
    rfl
  · intro hc
    exact ⟨_, ANSBuildInfoTable_spec cfg counts alphabet_size info hW
      (no_zero_divisor_of_fit cfg counts alphabet_size hc)⟩

/-- Instance of C7: the counts 3, 5, 0, 8 under the sample configuration. -/
theorem ANSBuildInfoTable_ifreq_ceil_witness :
    sampleConfig.USE_MULT_BY_RECIPROCAL = true ∧ sampleConfig.field_bits ≤ 32 ∧
    sampleConfig.RECIPROCAL_PRECISION < 64 ∧
    sampleConfig.RECIPROCAL_PRECISION < sampleConfig.ifreq_bits ∧
    ((∀ tbl, ANSBuildInfoTable sampleConfig sampleCounts 4 zeroInfo = some tbl →
      ∀ s, s < 4 → 0 < (tbl s).freq_ →
        (tbl s).ifreq_ =
          ⌈(2 : ℚ) ^ sampleConfig.RECIPROCAL_PRECISION / ((tbl s).freq_ : ℚ)⌉₊ ∧
        2 ^ sampleConfig.RECIPROCAL_PRECISION ≤ (tbl s).ifreq_ * (tbl s).freq_ ∧
        ∀ m, 2 ^ sampleConfig.RECIPROCAL_PRECISION ≤ m * (tbl s).freq_ →
          (tbl s).ifreq_ ≤ m) ∧
    ((∀ j, j < 4 → 0 ≤ sampleCounts j ∧
        sampleCounts j < 2 ^ sampleConfig.field_bits) →
      ∃ tbl, ANSBuildInfoTable sampleConfig sampleCounts 4 zeroInfo = some tbl)) :=
  ⟨by decide, by decide, by decide, by decide,
    ANSBuildInfoTable_ifreq_ceil sampleConfig sampleCounts 4 zeroInfo
      (by decide) (by decide) (by decide) (by decide)⟩

/-- C8: with `USE_MULT_BY_RECIPROCAL` defined, fields of at most 32 bits, a
precision `P = RECIPROCAL_PRECISION` below 64 and below the width of `ifreq_`,
and `table_size^2 <= 2^P`: for non-negative counts that sum to `table_size`
(which fits the fields), every symbol `s` with `freq[s] > 0` and every
`x < table_size` satisfy `(x * ifreq[s]) >> P = floor(x / freq[s])`. -/
theorem ANSBuildInfoTable_reciprocal_exact (cfg : ANSConfig) (counts : Nat → Int)
    (alphabet_size : Nat) (info : Nat → ANSEncSymbolInfo) (table_size : Nat)
    (hu : cfg.USE_MULT_BY_RECIPROCAL = true) (hW : cfg.field_bits ≤ 32)
    (hP : cfg.RECIPROCAL_PRECISION < 64)
    (hI : cfg.RECIPROCAL_PRECISION < cfg.ifreq_bits)
    (hTP : table_size * table_size ≤ 2 ^ cfg.RECIPROCAL_PRECISION)
    (hnn : ∀ j, j < alphabet_size → 0 ≤ counts j)
    (hsum : ∑ j in Finset.range alphabet_size, counts j = table_size)
    (hT : table_size < 2 ^ cfg.field_bits) :
    ∃ tbl, ANSBuildInfoTable cfg counts alphabet_size info = some tbl ∧
      ∀ s, s < alphabet_size → 0 < (tbl s).freq_ →
        ∀ x, x < table_size →
          (x * (tbl s).ifreq_) >>> cfg.RECIPROCAL_PRECISION = x / (tbl s).freq_ := by
  have hps : cumulative counts alphabet_size = table_size := hsum
  have hfit : cumulative counts alphabet_size < 2 ^ cfg.field_bits := by
    rw [hps]; exact_mod_cast hT
  obtain ⟨tbl, h1, h2, h3⟩ :=
    ANSBuildInfoTable_valid cfg counts alphabet_size info hW hnn hfit
  refine ⟨tbl, h1, ?_⟩
  intro s hs hf x hx
  have hle : (tbl s).freq_ ≤ table_size := by
    have ha := (h3 s hs).1
    have hb := count_le_cumulative counts alphabet_size hnn s hs
    rw [hps] at hb
    omega
  have hent := h2 s hs
  have hi : (tbl s).ifreq_ =
      (2 ^ cfg.RECIPROCAL_PRECISION + (tbl s).freq_ - 1) / (tbl s).freq_ := by
    rw [hent] at hf ⊢
    exact entryOf_ifreq cfg counts (info s) s hu hW hP hI hf
  rw [hi]
  apply mulShift_exact _ _ _ hf
  calc x * ((tbl s).freq_ - 1) ≤ x * table_size := Nat.mul_le_mul_left x (by omega)
    _ < table_size * table_size := Nat.mul_lt_mul_of_pos_right hx (by omega)
    _ ≤ 2 ^ cfg.RECIPROCAL_PRECISION := hTP

/-- Instance of C8: the counts 3, 5, 0, 8 (total 16) under the sample
configuration. -/
theorem ANSBuildInfoTable_reciprocal_exact_witness :
    sampleConfig.USE_MULT_BY_RECIPROCAL = true ∧ sampleConfig.field_bits ≤ 32 ∧
    sampleConfig.RECIPROCAL_PRECISION < 64 ∧
    sampleConfig.RECIPROCAL_PRECISION < sampleConfig.ifreq_bits ∧
    16 * 16 ≤ 2 ^ sampleConfig.RECIPROCAL_PRECISION ∧
    (∀ j, j < 4 → 0 ≤ sampleCounts j) ∧
    ∑ j in Finset.range 4, sampleCounts j = (16 : Nat) ∧
    16 < 2 ^ sampleConfig.field_bits ∧
    ∃ tbl, ANSBuildInfoTable sampleConfig sampleCounts 4 zeroInfo = some tbl ∧
      ∀ s, s < 4 → 0 < (tbl s).freq_ →
        ∀ x, x < 16 →
          (x * (tbl s).ifreq_) >>> sampleConfig.RECIPROCAL_PRECISION =
            x / (tbl s).freq_ :=
  ⟨by decide, by decide, by decide, by decide, by decide, by decide, by decide,
    by decide,
    ANSBuildInfoTable_reciprocal_exact sampleConfig sampleCounts 4 zeroInfo 16
      (by decide) (by decide) (by decide) (by decide) (by decide) (by decide)
      (by decide) (by decide)⟩

/-! ## Bit writer: frame below the cursor, zero tail, storage preparation -/

/-- C11: for a width `n <= 56` and every value `v`, `WriteBits` leaves every
stream bit below `pos` unchanged on both branches: every byte before index
`pos >> 3` is unchanged, and the low `pos & 7` bits of byte `pos >> 3` are
unchanged. -/
theorem WriteBits_preserves_lower_bits (le : Bool) (n v : Nat) (st : BitStorage)
    (hn : n ≤ 56) :
    (∀ j, j < st.pos >>> 3 → (WriteBits le n v st).array j = st.array j) ∧
    (∀ k, k < st.pos &&& 7 →
      ((WriteBits le n v st).array (st.pos >>> 3)).val.testBit k =
        (st.array (st.pos >>> 3)).val.testBit k) ∧
    (∀ q, q < st.pos →
      streamBit (WriteBits le n v st).array q = streamBit st.array q) := by
  refine ⟨fun j hj => WriteBits_frame le n v st j (Or.inl hj), ?_,
    fun q hq => WriteBits_below_preserved le n v st hn q hq⟩
  intro k hk
  rw [and_seven] at hk
  have h := WriteBits_below_preserved le n v st hn (8 * (st.pos / 8) + k) (by omega)
  rw [streamBit_eq, streamBit_eq] at h
  have hq8 : (8 * (st.pos / 8) + k) / 8 = st.pos / 8 := by omega
  have hm8 : (8 * (st.pos / 8) + k) % 8 = k := by omega
  rw [hq8, hm8] at h
  rw [shiftRight_three]
  exact h

/-- Instance of C11: 13 bits written at bit 3, over one bit written before, on
the byte-by-byte branch. -/
theorem WriteBits_preserves_lower_bits_witness :
    13 ≤ 56 ∧
    ((∀ j, j < 3 >>> 3 →
      (WriteBits false 13 5000 ⟨3, staleBufferOneBit⟩).array j = staleBufferOneBit j) ∧
    (∀ k, k < 3 &&& 7 →
      ((WriteBits false 13 5000 ⟨3, staleBufferOneBit⟩).array (3 >>> 3)).val.testBit k =
        (staleBufferOneBit (3 >>> 3)).val.testBit k) ∧
    (∀ q, q < 3 →
      streamBit (WriteBits false 13 5000 ⟨3, staleBufferOneBit⟩).array q =
        streamBit staleBufferOneBit q)) :=
  ⟨by decide,
    WriteBits_preserves_lower_bits false 13 5000 ⟨3, staleBufferOneBit⟩ (by decide)⟩

/-- C15: for `n <= 56` and `v < 2^n`, if before the call every bit of byte
`pos >> 3` at in-byte position `>= pos & 7` is zero, then after the call every
bit of byte `(pos + n) >> 3` at in-byte position `>= (pos + n) & 7` is zero, on
both branches; the new cursor is `pos + n`, so the precondition of the next
call holds. -/
theorem WriteBits_keeps_zero_tail (le : Bool) (n v : Nat) (st : BitStorage)
    (hn : n ≤ 56) (hv : v < 2 ^ n) (hz : ZeroTail st.array st.pos) :
    (∀ k, k < 8 → ((st.pos + n) &&& 7) ≤ k →
      ((WriteBits le n v st).array ((st.pos + n) >>> 3)).val.testBit k = false) ∧
    ZeroTail (WriteBits le n v st).array (WriteBits le n v st).pos := by
  have h := WriteBits_zeroTail le n v st hn hv hz
  refine ⟨h, ?_⟩
  rw [WriteBits_pos]
  exact h

/-- Instance of C15: 13 bits of 5000 written at bit 3 on the little-endian
branch. -/
theorem WriteBits_keeps_zero_tail_witness :
    13 ≤ 56 ∧ 5000 < 2 ^ 13 ∧ ZeroTail staleBufferOneBit 3 ∧
    ((∀ k, k < 8 → ((3 + 13) &&& 7) ≤ k →
      ((WriteBits true 13 5000 ⟨3, staleBufferOneBit⟩).array
        ((3 + 13) >>> 3)).val.testBit k = false) ∧
    ZeroTail (WriteBits true 13 5000 ⟨3, staleBufferOneBit⟩).array
      (WriteBits true 13 5000 ⟨3, staleBufferOneBit⟩).pos) :=
  ⟨by decide, by decide, by decide,
    WriteBits_keeps_zero_tail true 13 5000 ⟨3, staleBufferOneBit⟩
      (by decide) (by decide) (by decide)⟩

/-- C18: for a byte-aligned bit position `pos`, `WriteBitsPrepareStorage` sets
byte `pos >> 3` to zero and leaves every other byte unchanged. -/
theorem WriteBitsPrepareStorage_zeroes_one_byte (pos : Nat) (array : Buffer)
    (_ha : pos &&& 7 = 0) :
    WriteBitsPrepareStorage pos array (pos >>> 3) = 0 ∧
    ∀ j, j ≠ pos >>> 3 → WriteBitsPrepareStorage pos array j = array j := by
  refine ⟨by simp [WriteBitsPrepareStorage, store], ?_⟩
  intro j hj
  simp [WriteBitsPrepareStorage, store, hj]

/-- Instance of C18: bit position 16 of a stale buffer. -/
theorem WriteBitsPrepareStorage_zeroes_one_byte_witness :
    16 &&& 7 = 0 ∧
    (WriteBitsPrepareStorage 16 staleBuffer (16 >>> 3) = 0 ∧
    ∀ j, j ≠ 16 >>> 3 → WriteBitsPrepareStorage 16 staleBuffer j = staleBuffer j) :=
  ⟨by decide, WriteBitsPrepareStorage_zeroes_one_byte 16 staleBuffer (by decide)⟩

/-! ## Normalization as specified: auxiliary facts -/

theorem largestSymbol_le (counts : Nat → Int) (n : Nat) : largestSymbol counts n ≤ n := by
  induction n with
  | zero => simp [largestSymbol]
  | succ n ih =>
    unfold largestSymbol
    split
    · exact le_refl _
    · omega

theorem largestSymbol_max (counts : Nat → Int) (n : Nat) :
    ∀ s, s ≤ n → histCount counts s ≤ histCount counts (largestSymbol counts n) := by
  induction n with
  | zero =>
    intro s hs
    have h0 : s = 0 := by omega
    subst h0
    simp [largestSymbol]
  | succ n ih =>
    intro s hs
    unfold largestSymbol
    by_cases hlt : histCount counts (largestSymbol counts n) < histCount counts (n + 1)
    · rw [if_pos hlt]
      by_cases hsn : s = n + 1
      · rw [hsn]
      · have := ih s (by omega)
        omega
    · rw [if_neg hlt]
      by_cases hsn : s = n + 1
      · rw [hsn]; omega
      · exact ih s (by omega)

theorem supportSize_le (counts : Nat → Int) (length : Nat) :
    supportSize counts length ≤ length := by
  unfold supportSize
  calc (∑ s in Finset.range length, if histCount counts s = 0 then 0 else 1)
      ≤ ∑ _s in Finset.range length, 1 := by
        apply Finset.sum_le_sum
        intro s _
        split <;> omega
    _ = length := by simp

/-- Rounded-down proportional shares of `R` add up to at most `R`. -/
theorem sum_shares_le (counts : Nat → Int) (length R : Nat)
    (ht : histTotal counts length ≠ 0) :
    ∑ s in Finset.range length, histCount counts s * R / histTotal counts length ≤ R := by
  have hpos : 0 < histTotal counts length := Nat.pos_of_ne_zero ht
  have h1 : (∑ s in Finset.range length,
      histCount counts s * R / histTotal counts length) * histTotal counts length ≤
      ∑ s in Finset.range length, histCount counts s * R := by
    rw [Finset.sum_mul]
    apply Finset.sum_le_sum
    intro s _
    exact Nat.div_mul_le_self _ _
  have h2 : ∑ s in Finset.range length, histCount counts s * R =
      R * histTotal counts length := by
    unfold histTotal
    rw [← Finset.sum_mul, Nat.mul_comm]
  rw [h2] at h1
  exact Nat.le_of_mul_le_mul_right h1 hpos

theorem sum_scaled_le (counts : Nat → Int) (length table_size : Nat)
    (ht : histTotal counts length ≠ 0) (hk : supportSize counts length ≤ table_size) :
    ∑ s in Finset.range length, scaledCount counts length table_size s ≤ table_size := by
  have h1 : ∑ s in Finset.range length, scaledCount counts length table_size s ≤
      ∑ s in Finset.range length, ((if histCount counts s = 0 then 0 else 1) +
        histCount counts s * (table_size - supportSize counts length) /
          histTotal counts length) := by
    apply Finset.sum_le_sum
    intro s _
    unfold scaledCount
    by_cases h0 : histCount counts s = 0
    · simp [h0]
    · simp [h0]
  rw [Finset.sum_add_distrib] at h1
  have h2 := sum_shares_le counts length (table_size - supportSize counts length) ht
  have h3 : (∑ s in Finset.range length, if histCount counts s = 0 then 0 else 1) =
      supportSize counts length := rfl
  omega

/-- A histogram with a nonzero total has a symbol below `length`, and the
largest symbol is one of them with a nonzero count. -/
theorem largestSymbol_spec (counts : Nat → Int) (length : Nat)
    (ht : histTotal counts length ≠ 0) :
    largestSymbol counts (length - 1) < length ∧
      histCount counts (largestSymbol counts (length - 1)) ≠ 0 := by
  have hex : ∃ s, s ∈ Finset.range length ∧ histCount counts s ≠ 0 := by
    by_contra hne
    push_neg at hne
    exact ht (Finset.sum_eq_zero hne)
  obtain ⟨s, hs, hs0⟩ := hex
  have hsl := Finset.mem_range.mp hs
  have h1 := largestSymbol_le counts (length - 1)
  have h2 := largestSymbol_max counts (length - 1) s (by omega)
  exact ⟨by omega, by omega⟩

theorem sum_normalizedCount (counts : Nat → Int) (length table_size : Nat)
    (ht : histTotal counts length ≠ 0) (hk : supportSize counts length ≤ table_size) :
    ∑ s in Finset.range length, normalizedCount counts length table_size s =
      table_size := by
  have hle := sum_scaled_le counts length table_size ht hk
  have hom := (largestSymbol_spec counts length ht).1
  unfold normalizedCount
  rw [Finset.sum_add_distrib, Finset.sum_ite_eq' (Finset.range length)
    (largestSymbol counts (length - 1)), if_pos (Finset.mem_range.mpr hom)]
  omega

theorem normalizedCount_eq_zero_iff (counts : Nat → Int) (length table_size s : Nat)
    (ht : histTotal counts length ≠ 0) :
    normalizedCount counts length table_size s = 0 ↔ histCount counts s = 0 := by
  have hom := (largestSymbol_spec counts length ht).2
  unfold normalizedCount scaledCount
  constructor
  · intro h
    by_contra h0
    rw [if_neg h0, Nat.add_assoc, Nat.one_add] at h
    exact Nat.succ_ne_zero _ h
  · intro h0
    have hne : s ≠ largestSymbol counts (length - 1) := by
      intro he
      rw [← he] at hom
      exact hom h0
    rw [if_pos h0, if_neg hne]

theorem normalizedCount_le (counts : Nat → Int) (length table_size s : Nat)
    (hs : s < length)
    (ht : histTotal counts length ≠ 0) (hk : supportSize counts length ≤ table_size) :
    normalizedCount counts length table_size s ≤ table_size := by
  have hsum := sum_normalizedCount counts length table_size ht hk
  have hle := Finset.single_le_sum
    (f := fun j => normalizedCount counts length table_size j)
    (fun j _ => Nat.zero_le _) (Finset.mem_range.mpr hs)
  simp only at hle
  omega

/-- Every entry that `NormalizeCounts` leaves is in `[0, table_size]`, as long
as the alphabet is no larger than the table. -/
theorem normalizedArray_range (counts : Nat → Int) (length precision_bits s : Nat)
    (hs : s < length) (hN : length ≤ 2 ^ precision_bits) :
    0 ≤ normalizedArray counts length precision_bits s ∧
      normalizedArray counts length precision_bits s ≤ ((2 ^ precision_bits : Nat) : Int) := by
  unfold normalizedArray
  rw [if_pos hs]
  by_cases ht : histTotal counts length = 0
  · rw [if_pos ht]
    by_cases h0 : s = 0
    · rw [if_pos h0]
      exact ⟨by positivity, by simp⟩
    · rw [if_neg h0]
      exact ⟨le_refl _, by positivity⟩
  · rw [if_neg ht]
    have hle := normalizedCount_le counts length (2 ^ precision_bits) s hs ht
      (le_trans (supportSize_le counts length) hN)
    exact ⟨by positivity, by exact_mod_cast hle⟩

/-- The entries that `NormalizeCounts` leaves sum to `table_size` for a
histogram that is not all zero. -/
theorem normalizedArray_sum (counts : Nat → Int) (length precision_bits : Nat)
    (ht : histTotal counts length ≠ 0) (hN : length ≤ 2 ^ precision_bits) :
    ∑ s in Finset.range length, normalizedArray counts length precision_bits s =
      ((2 ^ precision_bits : Nat) : Int) := by
  have hsum := sum_normalizedCount counts length (2 ^ precision_bits) ht
    (le_trans (supportSize_le counts length) hN)
  have hcongr : ∑ s in Finset.range length, normalizedArray counts length precision_bits s =
      ∑ s in Finset.range length,
        ((normalizedCount counts length (2 ^ precision_bits) s : Nat) : Int) := by
    apply Finset.sum_congr rfl
    intro s hs
    unfold normalizedArray
    rw [if_pos (Finset.mem_range.mp hs), if_neg ht]
  rw [hcongr, ← Nat.cast_sum, hsum]

/-- A valid histogram (non-negative, not all zero) has a nonzero total. -/
theorem histTotal_ne_zero (counts : Nat → Int) (length : Nat)
    (hnn : ∀ s, s < length → 0 ≤ counts s)
    (hex : ∃ s, s < length ∧ counts s ≠ 0) : histTotal counts length ≠ 0 := by
  obtain ⟨s, hs, hs0⟩ := hex
  have h0 := hnn s hs
  have hc : histCount counts s ≠ 0 := by
    unfold histCount
    omega
  intro ht
  unfold histTotal at ht
  rw [Finset.sum_eq_zero_iff] at ht
  exact hc (ht s (Finset.mem_range.mpr hs))

/-! ## Encoding pipeline: auxiliary facts -/

theorem histCount_copy (histogram : Nat → Int) (n s : Nat) (hs : s < n) :
    histCount (histogramCopy histogram n) s = histCount histogram s := by
  simp [histCount, histogramCopy, hs]

theorem histTotal_copy (histogram : Nat → Int) (n : Nat) :
    histTotal (histogramCopy histogram n) n = histTotal histogram n := by
  unfold histTotal
  apply Finset.sum_congr rfl
  intro s hs
  exact histCount_copy histogram n s (Finset.mem_range.mp hs)

theorem normalizedOf_counts (cfg : PipelineConfig) (histogram : Nat → Int) :
    (normalizedOf cfg histogram).counts =
      normalizedArray (histogramCopy histogram cfg.ANS_MAX_SYMBOLS)
        cfg.ANS_MAX_SYMBOLS cfg.ANS_LOG_TAB_SIZE := rfl

/-- The pipeline on any histogram, for fields of at most 32 bits that hold the
table size and an alphabet no larger than the table: it returns, the histogram
is the one passed in, the table is the one built from the normalized counts,
the storage is what `EncodeCounts` makes of the same normalized counts, and
every `freq_` is the normalized count. -/
theorem BuildAndStore_spec (cfg : PipelineConfig)
    (EncodeCounts : (Nat → Int) → Int → Int → (Nat → Int) → BitStorage → BitStorage)
    (histogram : Nat → Int) (table : Nat → ANSEncSymbolInfo) (storage : BitStorage)
    (hW : cfg.field_bits ≤ 32) (hL : cfg.ANS_LOG_TAB_SIZE < cfg.field_bits)
    (hN : cfg.ANS_MAX_SYMBOLS ≤ 2 ^ cfg.ANS_LOG_TAB_SIZE) :
    ∃ r, BuildAndStoreANSEncodingData cfg EncodeCounts histogram table storage = some r ∧
      r.histogram = histogram ∧
      ANSBuildInfoTable cfg.toANSConfig (normalizedOf cfg histogram).counts
        cfg.ANS_MAX_SYMBOLS table = some r.table ∧
      r.storage = EncodeCounts (normalizedOf cfg histogram).counts
        (normalizedOf cfg histogram).omit_pos (normalizedOf cfg histogram).num_symbols
        (normalizedOf cfg histogram).symbols storage ∧
      ∀ s, s < cfg.ANS_MAX_SYMBOLS →
        ((r.table s).freq_ : Int) = (normalizedOf cfg histogram).counts s := by
  have hc : ∀ j, j < cfg.ANS_MAX_SYMBOLS →
      0 ≤ (normalizedOf cfg histogram).counts j ∧
        (normalizedOf cfg histogram).counts j < 2 ^ cfg.field_bits := by
    intro j hj
    rw [normalizedOf_counts]
    have hr := normalizedArray_range (histogramCopy histogram cfg.ANS_MAX_SYMBOLS)
      cfg.ANS_MAX_SYMBOLS cfg.ANS_LOG_TAB_SIZE j hj hN
    refine ⟨hr.1, lt_of_le_of_lt hr.2 ?_⟩
    have hp : 2 ^ cfg.ANS_LOG_TAB_SIZE < 2 ^ cfg.field_bits :=
      Nat.pow_lt_pow_right (by decide) hL
    exact_mod_cast hp
  have hspec := ANSBuildInfoTable_spec cfg.toANSConfig (normalizedOf cfg histogram).counts
    cfg.ANS_MAX_SYMBOLS table hW
    (no_zero_divisor_of_fit cfg.toANSConfig _ cfg.ANS_MAX_SYMBOLS hc)
  have hrun : BuildAndStoreANSEncodingData cfg EncodeCounts histogram table storage =
      match ANSBuildInfoTable cfg.toANSConfig (normalizedOf cfg histogram).counts
        cfg.ANS_MAX_SYMBOLS table with
      | none => none
      | some info =>
        some { histogram := histogram, table := info,
               storage := EncodeCounts (normalizedOf cfg histogram).counts
                 (normalizedOf cfg histogram).omit_pos
                 (normalizedOf cfg histogram).num_symbols
                 (normalizedOf cfg histogram).symbols storage } := rfl
  rw [hrun, hspec]
  refine ⟨_, rfl, rfl, rfl, rfl, ?_⟩
  intro s hs
  simp only [hs, if_true]
  exact toUint_of_lt _ _ (hc s hs).1 (hc s hs).2

theorem copy_total_ne_zero (histogram : Nat → Int) (n : Nat)
    (hnn : ∀ s, s < n → 0 ≤ histogram s)
    (hex : ∃ s, s < n ∧ histogram s ≠ 0) :
    histTotal (histogramCopy histogram n) n ≠ 0 := by
  rw [histTotal_copy]
  exact histTotal_ne_zero histogram n hnn hex

/-- For a valid histogram a normalized count is zero exactly when the
histogram entry is. -/
theorem normalizedOf_eq_zero_iff (cfg : PipelineConfig) (histogram : Nat → Int)
    (hnn : ∀ s, s < cfg.ANS_MAX_SYMBOLS → 0 ≤ histogram s)
    (hex : ∃ s, s < cfg.ANS_MAX_SYMBOLS ∧ histogram s ≠ 0)
    (s : Nat) (hs : s < cfg.ANS_MAX_SYMBOLS) :
    (normalizedOf cfg histogram).counts s = 0 ↔ histogram s = 0 := by
  have ht := copy_total_ne_zero histogram cfg.ANS_MAX_SYMBOLS hnn hex
  rw [normalizedOf_counts]
  unfold normalizedArray
  rw [if_pos hs, if_neg ht]
  have hz := normalizedCount_eq_zero_iff (histogramCopy histogram cfg.ANS_MAX_SYMBOLS)
    cfg.ANS_MAX_SYMBOLS (2 ^ cfg.ANS_LOG_TAB_SIZE) s ht
  rw [histCount_copy histogram _ s hs] at hz
  have h0 := hnn s hs
  have hh : histCount histogram s = 0 ↔ histogram s = 0 := by
    unfold histCount
    omega
  rw [← hh, ← hz]
  exact Int.natCast_eq_zero

/-! ## Encoding pipeline: the properties -/

/-- C12: for every valid histogram (non-negative entries, not all zero), the
normalized counts that `BuildAndStoreANSEncodingData` obtains from
`NormalizeCounts` sum to `table_size = 2^ANS_LOG_TAB_SIZE`, they are stored as
the `freq_` fields of the encode table, and the `freq_` fields sum to
`table_size`.  The constants are parameters: fields of at most 32 bits that
hold the table size, and an alphabet no larger than the table. -/
theorem BuildAndStore_sum_invariant (cfg : PipelineConfig)
    (EncodeCounts : (Nat → Int) → Int → Int → (Nat → Int) → BitStorage → BitStorage)
    (histogram : Nat → Int) (table : Nat → ANSEncSymbolInfo) (storage : BitStorage)
    (hW : cfg.field_bits ≤ 32) (hL : cfg.ANS_LOG_TAB_SIZE < cfg.field_bits)
    (hN : cfg.ANS_MAX_SYMBOLS ≤ 2 ^ cfg.ANS_LOG_TAB_SIZE)
    (hnn : ∀ s, s < cfg.ANS_MAX_SYMBOLS → 0 ≤ histogram s)
    (hex : ∃ s, s < cfg.ANS_MAX_SYMBOLS ∧ histogram s ≠ 0) :
    ∃ r, BuildAndStoreANSEncodingData cfg EncodeCounts histogram table storage = some r ∧
      ∑ s in Finset.range cfg.ANS_MAX_SYMBOLS, (normalizedOf cfg histogram).counts s =
        ((2 ^ cfg.ANS_LOG_TAB_SIZE : Nat) : Int) ∧
      (∀ s, s < cfg.ANS_MAX_SYMBOLS →
        ((r.table s).freq_ : Int) = (normalizedOf cfg histogram).counts s) ∧
      ∑ s in Finset.range cfg.ANS_MAX_SYMBOLS, (r.table s).freq_ =
        2 ^ cfg.ANS_LOG_TAB_SIZE := by
  obtain ⟨r, h1, _, _, _, h5⟩ :=
    BuildAndStore_spec cfg EncodeCounts histogram table storage hW hL hN
  have ht := copy_total_ne_zero histogram cfg.ANS_MAX_SYMBOLS hnn hex
  have hsum := normalizedArray_sum (histogramCopy histogram cfg.ANS_MAX_SYMBOLS)
    cfg.ANS_MAX_SYMBOLS cfg.ANS_LOG_TAB_SIZE ht hN
  rw [← normalizedOf_counts] at hsum
  refine ⟨r, h1, hsum, h5, ?_⟩
  have hcast : ((∑ s in Finset.range cfg.ANS_MAX_SYMBOLS, (r.table s).freq_ : Nat) : Int) =
      ((2 ^ cfg.ANS_LOG_TAB_SIZE : Nat) : Int) := by
    rw [Nat.cast_sum, ← hsum]
    apply Finset.sum_congr rfl
    intro s hs
    exact h5 s (Finset.mem_range.mp hs)
  exact_mod_cast hcast

/-- Instance of C12: the histogram 3, 5, 0, 8 over 4 symbols with table size
1024. -/
theorem BuildAndStore_sum_invariant_witness :
    samplePipeline.field_bits ≤ 32 ∧
    samplePipeline.ANS_LOG_TAB_SIZE < samplePipeline.field_bits ∧
    samplePipeline.ANS_MAX_SYMBOLS ≤ 2 ^ samplePipeline.ANS_LOG_TAB_SIZE ∧
    (∀ s, s < samplePipeline.ANS_MAX_SYMBOLS → 0 ≤ sampleCounts s) ∧
    (∃ s, s < samplePipeline.ANS_MAX_SYMBOLS ∧ sampleCounts s ≠ 0) ∧
    ∃ r, BuildAndStoreANSEncodingData samplePipeline noEncodeCounts sampleCounts
        zeroInfo ⟨0, staleBuffer⟩ = some r ∧
      ∑ s in Finset.range samplePipeline.ANS_MAX_SYMBOLS,
          (normalizedOf samplePipeline sampleCounts).counts s =
        ((2 ^ samplePipeline.ANS_LOG_TAB_SIZE : Nat) : Int) ∧
      (∀ s, s < samplePipeline.ANS_MAX_SYMBOLS →
        ((r.table s).freq_ : Int) = (normalizedOf samplePipeline sampleCounts).counts s) ∧
      ∑ s in Finset.range samplePipeline.ANS_MAX_SYMBOLS, (r.table s).freq_ =
        2 ^ samplePipeline.ANS_LOG_TAB_SIZE :=
  ⟨by decide, by decide, by decide, by decide, ⟨0, by decide, by decide⟩,
    BuildAndStore_sum_invariant samplePipeline noEncodeCounts sampleCounts zeroInfo
      ⟨0, staleBuffer⟩ (by decide) (by decide) (by decide) (by decide)
      ⟨0, by decide, by decide⟩⟩

/-- C13: for every valid histogram `h` (non-negative entries, not all zero) and
every symbol `s < ANS_MAX_SYMBOLS`, the normalized count that
`BuildAndStoreANSEncodingData` obtains from `NormalizeCounts` and stores as
`info_[s].freq_` is zero if and only if `h[s]` is zero.  The constants are
parameters: fields of at most 32 bits that hold the table size, and an alphabet
no larger than the table. -/
theorem BuildAndStore_support_preserved (cfg : PipelineConfig)
    (EncodeCounts : (Nat → Int) → Int → Int → (Nat → Int) → BitStorage → BitStorage)
    (histogram : Nat → Int) (table : Nat → ANSEncSymbolInfo) (storage : BitStorage)
    (hW : cfg.field_bits ≤ 32) (hL : cfg.ANS_LOG_TAB_SIZE < cfg.field_bits)
    (hN : cfg.ANS_MAX_SYMBOLS ≤ 2 ^ cfg.ANS_LOG_TAB_SIZE)
    (hnn : ∀ s, s < cfg.ANS_MAX_SYMBOLS → 0 ≤ histogram s)
    (hex : ∃ s, s < cfg.ANS_MAX_SYMBOLS ∧ histogram s ≠ 0) :
    ∃ r, BuildAndStoreANSEncodingData cfg EncodeCounts histogram table storage = some r ∧
      ∀ s, s < cfg.ANS_MAX_SYMBOLS →
        ((normalizedOf cfg histogram).counts s = 0 ↔ histogram s = 0) ∧
        ((r.table s).freq_ = 0 ↔ histogram s = 0) := by
  obtain ⟨r, h1, _, _, _, h5⟩ :=
    BuildAndStore_spec cfg EncodeCounts histogram table storage hW hL hN
  refine ⟨r, h1, ?_⟩
  intro s hs
  have hz := normalizedOf_eq_zero_iff cfg histogram hnn hex s hs
  refine ⟨hz, ?_⟩
  rw [← hz, ← h5 s hs]
  exact Int.natCast_eq_zero.symm

/-- Instance of C13: the histogram 3, 5, 0, 8 over 4 symbols with table size
1024. -/
theorem BuildAndStore_support_preserved_witness :
    samplePipeline.field_bits ≤ 32 ∧
    samplePipeline.ANS_LOG_TAB_SIZE < samplePipeline.field_bits ∧
    samplePipeline.ANS_MAX_SYMBOLS ≤ 2 ^ samplePipeline.ANS_LOG_TAB_SIZE ∧
    (∀ s, s < samplePipeline.ANS_MAX_SYMBOLS → 0 ≤ sampleCounts s) ∧
    (∃ s, s < samplePipeline.ANS_MAX_SYMBOLS ∧ sampleCounts s ≠ 0) ∧
    ∃ r, BuildAndStoreANSEncodingData samplePipeline noEncodeCounts sampleCounts
        zeroInfo ⟨0, staleBuffer⟩ = some r ∧
      ∀ s, s < samplePipeline.ANS_MAX_SYMBOLS →
        ((normalizedOf samplePipeline sampleCounts).counts s = 0 ↔ sampleCounts s = 0) ∧
        ((r.table s).freq_ = 0 ↔ sampleCounts s = 0) :=
  ⟨by decide, by decide, by decide, by decide, ⟨0, by decide, by decide⟩,
    BuildAndStore_support_preserved samplePipeline noEncodeCounts sampleCounts zeroInfo
      ⟨0, staleBuffer⟩ (by decide) (by decide) (by decide) (by decide)
      ⟨0, by decide, by decide⟩⟩

/-- C17: for every histogram, `BuildAndStoreANSEncodingData` returns with the
caller's histogram unchanged (normalization ran on the copy), with the encode
table built by `ANSBuildInfoTable` from the normalized counts, with the storage
that `EncodeCounts` produces from the same normalized counts, and with
`info_[s].freq_` equal to the normalized count for every `s < ANS_MAX_SYMBOLS`.
The constants are parameters: fields of at most 32 bits that hold the table
size, and an alphabet no larger than the table. -/
theorem BuildAndStore_pipeline (cfg : PipelineConfig)
    (EncodeCounts : (Nat → Int) → Int → Int → (Nat → Int) → BitStorage → BitStorage)
    (histogram : Nat → Int) (table : Nat → ANSEncSymbolInfo) (storage : BitStorage)
    (hW : cfg.field_bits ≤ 32) (hL : cfg.ANS_LOG_TAB_SIZE < cfg.field_bits)
    (hN : cfg.ANS_MAX_SYMBOLS ≤ 2 ^ cfg.ANS_LOG_TAB_SIZE) :
    ∃ r, BuildAndStoreANSEncodingData cfg EncodeCounts histogram table storage = some r ∧
      r.histogram = histogram ∧
      ANSBuildInfoTable cfg.toANSConfig (normalizedOf cfg histogram).counts
        cfg.ANS_MAX_SYMBOLS table = some r.table ∧
      r.storage = EncodeCounts (normalizedOf cfg histogram).counts
        (normalizedOf cfg histogram).omit_pos (normalizedOf cfg histogram).num_symbols
        (normalizedOf cfg histogram).symbols storage ∧
      ∀ s, s < cfg.ANS_MAX_SYMBOLS →
        ((r.table s).freq_ : Int) = (normalizedOf cfg histogram).counts s :=
  BuildAndStore_spec cfg EncodeCounts histogram table storage hW hL hN

/-- Instance of C17: the histogram 3, 5, 0, 8 over 4 symbols with table size
1024; the table holds 192, 320, 0, 512, not the raw values. -/
theorem BuildAndStore_pipeline_witness :
    samplePipeline.field_bits ≤ 32 ∧
    samplePipeline.ANS_LOG_TAB_SIZE < samplePipeline.field_bits ∧
    samplePipeline.ANS_MAX_SYMBOLS ≤ 2 ^ samplePipeline.ANS_LOG_TAB_SIZE ∧
    ∃ r, BuildAndStoreANSEncodingData samplePipeline noEncodeCounts sampleCounts
        zeroInfo ⟨0, staleBuffer⟩ = some r ∧
      r.histogram = sampleCounts ∧
      ANSBuildInfoTable samplePipeline.toANSConfig
        (normalizedOf samplePipeline sampleCounts).counts
        samplePipeline.ANS_MAX_SYMBOLS zeroInfo = some r.table ∧
      r.storage = noEncodeCounts (normalizedOf samplePipeline sampleCounts).counts
        (normalizedOf samplePipeline sampleCounts).omit_pos
        (normalizedOf samplePipeline sampleCounts).num_symbols
        (normalizedOf samplePipeline sampleCounts).symbols ⟨0, staleBuffer⟩ ∧
      ∀ s, s < samplePipeline.ANS_MAX_SYMBOLS →
        ((r.table s).freq_ : Int) = (normalizedOf samplePipeline sampleCounts).counts s :=
  ⟨by decide, by decide, by decide,
    BuildAndStore_pipeline samplePipeline noEncodeCounts sampleCounts zeroInfo
      ⟨0, staleBuffer⟩ (by decide) (by decide) (by decide)⟩

/-! ## ANS encode table: zero counts and the range of the reciprocal -/

/-- One round of the loop that returns: the entry it wrote has the `ifreq_` of
`entryOf`, and the rest of the loop ran on the updated table. -/
theorem ANSBuildInfoTableLoop_succ (cfg : ANSConfig) (counts : Nat → Int)
    (k s : Nat) (total : Int) (info tbl : Nat → ANSEncSymbolInfo)
    (h : ANSBuildInfoTableLoop cfg counts (k + 1) s total info = some tbl) :
    ∃ (e : ANSEncSymbolInfo) (total1 : Int),
      e.ifreq_ = (entryOf cfg counts (info s) s).ifreq_ ∧
      ANSBuildInfoTableLoop cfg counts k (s + 1) total1
        (fun j => if j = s then e else info j) = some tbl := by
  unfold ANSBuildInfoTableLoop at h
  simp only [] at h
  by_cases hu : cfg.USE_MULT_BY_RECIPROCAL = true
  · by_cases hf : toUint 32 (counts s) ≠ 0
    · by_cases hz : toUint cfg.field_bits (counts s) = 0
      · rw [if_pos hu, if_pos hf, if_pos hz] at h
        exact absurd h (by simp)
      · rw [if_pos hu, if_pos hf, if_neg hz] at h
        exact ⟨_, _, by simp [entryOf, hu, hf], h⟩
    · rw [if_pos hu, if_neg hf] at h
      exact ⟨_, _, by simp [entryOf, hu, hf], h⟩
  · rw [if_neg hu] at h
    exact ⟨_, _, by simp [entryOf, hu], h⟩

/-- The `ifreq_` fields of a returned table, and the entries outside the loop
range, with no condition on the field widths. -/
theorem ANSBuildInfoTableLoop_ifreq (cfg : ANSConfig) (counts : Nat → Int) (k : Nat) :
    ∀ (s : Nat) (total : Int) (info tbl : Nat → ANSEncSymbolInfo),
      ANSBuildInfoTableLoop cfg counts k s total info = some tbl →
      ∀ j, (s ≤ j ∧ j < s + k →
          (tbl j).ifreq_ = (entryOf cfg counts (info j) j).ifreq_) ∧
        (¬ (s ≤ j ∧ j < s + k) → tbl j = info j) := by
  induction k with
  | zero =>
    intro s total info tbl h j
    simp only [ANSBuildInfoTableLoop] at h
    have he : info = tbl := Option.some.inj h
    rw [he]
    exact ⟨fun hj => by omega, fun _ => rfl⟩
  | succ k ih =>
    intro s total info tbl h j
    obtain ⟨e, total1, he, hrest⟩ := ANSBuildInfoTableLoop_succ cfg counts k s total info tbl h
    obtain ⟨i1, i2⟩ := ih (s + 1) total1 _ tbl hrest j
    constructor
    · intro hj
      by_cases hjs : j = s
      · subst hjs
        rw [i2 (by omega)]
        simpa using he
      · rw [i1 (by omega)]
        simp only [hjs, if_false]
    · intro hj
      have hjs : j ≠ s := by omega
      rw [i2 (by omega)]
      simp only [hjs, if_false]

/-- The loop returns when no round divides by zero. -/
theorem ANSBuildInfoTableLoop_returns (cfg : ANSConfig) (counts : Nat → Int) (k : Nat) :
    ∀ (s : Nat) (total : Int) (info : Nat → ANSEncSymbolInfo),
      (∀ j, s ≤ j → j < s + k → reciprocalDivisor cfg counts j ≠ some 0) →
      ∃ tbl, ANSBuildInfoTableLoop cfg counts k s total info = some tbl := by
  induction k with
  | zero =>
    intro s total info _
    exact ⟨info, rfl⟩
  | succ k ih =>
    intro s total info hd
    have hs := hd s (le_refl _) (by omega)
    have hrest : ∀ j, s + 1 ≤ j → j < s + 1 + k →
        reciprocalDivisor cfg counts j ≠ some 0 :=
      fun j h1 h2 => hd j (by omega) (by omega)
    unfold ANSBuildInfoTableLoop
    simp only []
    unfold reciprocalDivisor at hs
    by_cases hu : cfg.USE_MULT_BY_RECIPROCAL = true
    · by_cases hf : toUint 32 (counts s) ≠ 0
      · have hz : ¬ toUint cfg.field_bits (counts s) = 0 := by
          intro hz
          rw [if_pos hu, if_pos hf, hz] at hs
          exact hs rfl
        rw [if_pos hu, if_pos hf, if_neg hz]
        exact ih _ _ _ hrest
      · rw [if_pos hu, if_neg hf]
        exact ih _ _ _ hrest
    · rw [if_neg hu]
      exact ih _ _ _ hrest

/-- Counts in `[0, table_size]` with `table_size` in the range of the `freq_`
field never make a divisor zero. -/
theorem divisor_ne_zero_of_range (cfg : ANSConfig) (counts : Nat → Int) (table_size : Nat)
    (hT : table_size < 2 ^ cfg.field_bits) (j : Nat)
    (hc : 0 ≤ counts j ∧ counts j ≤ table_size) :
    reciprocalDivisor cfg counts j ≠ some 0 := by
  unfold reciprocalDivisor
  by_cases hu : cfg.USE_MULT_BY_RECIPROCAL = true
  · by_cases hf : toUint 32 (counts j) ≠ 0
    · rw [if_pos hu, if_pos hf]
      intro h
      have hz : toUint cfg.field_bits (counts j) = 0 := Option.some.inj h
      have hlt : counts j < 2 ^ cfg.field_bits := by
        have : (table_size : Int) < 2 ^ cfg.field_bits := by exact_mod_cast hT
        omega
      have h1 := toUint_of_lt cfg.field_bits (counts j) hc.1 hlt
      rw [hz] at h1
      have h0 : counts j = 0 := by simpa using h1.symm
      apply hf
      simp [h0, toUint]
    · rw [if_pos hu, if_neg hf]
      simp
  · rw [if_neg hu]
    simp

/-- `ANSBuildInfoTable` fails exactly when some round divides by zero. -/
theorem ANSBuildInfoTable_none_iff (cfg : ANSConfig) (counts : Nat → Int)
    (alphabet_size : Nat) (info : Nat → ANSEncSymbolInfo) :
    ANSBuildInfoTable cfg counts alphabet_size info = none ↔
      ∃ j, j < alphabet_size ∧ reciprocalDivisor cfg counts j = some 0 := by
  constructor
  · intro hnone
    by_contra hne
    push_neg at hne
    obtain ⟨tbl, htbl⟩ := ANSBuildInfoTableLoop_returns cfg counts alphabet_size 0 0 info
      (fun j _ h2 => hne j (by omega))
    unfold ANSBuildInfoTable at hnone
    rw [htbl] at hnone
    exact absurd hnone (by simp)
  · rintro ⟨j, hj, hd⟩
    unfold reciprocalDivisor at hd
    by_cases hu : cfg.USE_MULT_BY_RECIPROCAL = true
    · by_cases hf : toUint 32 (counts j) ≠ 0
      · rw [if_pos hu, if_pos hf] at hd
        exact ANSBuildInfoTableLoop_none cfg counts hu alphabet_size 0 0 info
          ⟨j, Nat.zero_le _, by omega, hf, Option.some.inj hd⟩
      · rw [if_pos hu, if_neg hf] at hd
        exact absurd hd (by simp)
    · rw [if_neg hu] at hd
      exact absurd hd (by simp)

/-- C14: with `USE_MULT_BY_RECIPROCAL` defined, for every counts array and
every symbol `s < alphabet_size` with `counts[s] = 0`, the loop body performs
no division for `s`, the round for `s` returns from any state with
`ifreq[s] = 1`, and every table that `ANSBuildInfoTable` returns has
`ifreq[s] = 1`; and for every counts array with entries in `[0, table_size]`,
where `table_size` is in the range of the `freq_` field, no divisor of the
reciprocal computation is zero and `ANSBuildInfoTable` returns a table. -/
theorem ANSBuildInfoTable_zero_count_safe (cfg : ANSConfig) (counts : Nat → Int)
    (alphabet_size : Nat) (info : Nat → ANSEncSymbolInfo)
    (hu : cfg.USE_MULT_BY_RECIPROCAL = true) :
    (∀ s, s < alphabet_size → counts s = 0 →
      reciprocalDivisor cfg counts s = none ∧
      (∀ (total : Int) (before : Nat → ANSEncSymbolInfo),
        ∃ tbl, ANSBuildInfoTableLoop cfg counts 1 s total before = some tbl ∧
          (tbl s).ifreq_ = 1) ∧
      ∀ tbl, ANSBuildInfoTable cfg counts alphabet_size info = some tbl →
        (tbl s).ifreq_ = 1) ∧
    (∀ table_size : Nat, table_size < 2 ^ cfg.field_bits →
      (∀ j, j < alphabet_size → 0 ≤ counts j ∧ counts j ≤ table_size) →
      (∀ j, j < alphabet_size → reciprocalDivisor cfg counts j ≠ some 0) ∧
      ∃ tbl, ANSBuildInfoTable cfg counts alphabet_size info = some tbl) := by
  constructor
  · intro s hs h0
    have hg : toUint 32 (counts s) = 0 := by simp [h0, toUint]
    refine ⟨by simp [reciprocalDivisor, hg], ?_, ?_⟩
    · intro total before
      have hstep : ANSBuildInfoTableLoop cfg counts 1 s total before =
          some (fun j => if j = s then
            ⟨toUint cfg.field_bits (counts s), toUint cfg.field_bits total, 1⟩
            else before j) := by
        simp only [ANSBuildInfoTableLoop, hu, hg, if_true, ne_eq,
          not_true_eq_false, if_false]
      exact ⟨_, hstep, by simp⟩
    intro tbl htbl
    have hi := (ANSBuildInfoTableLoop_ifreq cfg counts alphabet_size 0 0 info tbl htbl s).1
      ⟨Nat.zero_le _, by omega⟩
    rw [hi]
    simp [entryOf, hu, hg]
  · intro table_size hT hc
    have hd : ∀ j, j < alphabet_size → reciprocalDivisor cfg counts j ≠ some 0 :=
      fun j hj => divisor_ne_zero_of_range cfg counts table_size hT j (hc j hj)
    exact ⟨hd, ANSBuildInfoTableLoop_returns cfg counts alphabet_size 0 0 info
      (fun j _ h2 => hd j (by omega))⟩

/-- Instance of C14: the counts 3, 5, 0, 8 under the sample configuration;
symbol 2 has count zero. -/
theorem ANSBuildInfoTable_zero_count_safe_witness :
    sampleConfig.USE_MULT_BY_RECIPROCAL = true ∧
    ((∀ s, s < 4 → sampleCounts s = 0 →
      reciprocalDivisor sampleConfig sampleCounts s = none ∧
      (∀ (total : Int) (before : Nat → ANSEncSymbolInfo),
        ∃ tbl, ANSBuildInfoTableLoop sampleConfig sampleCounts 1 s total before =
            some tbl ∧
          (tbl s).ifreq_ = 1) ∧
      ∀ tbl, ANSBuildInfoTable sampleConfig sampleCounts 4 zeroInfo = some tbl →
        (tbl s).ifreq_ = 1) ∧
    (∀ table_size : Nat, table_size < 2 ^ sampleConfig.field_bits →
      (∀ j, j < 4 → 0 ≤ sampleCounts j ∧ sampleCounts j ≤ table_size) →
      (∀ j, j < 4 → reciprocalDivisor sampleConfig sampleCounts j ≠ some 0) ∧
      ∃ tbl, ANSBuildInfoTable sampleConfig sampleCounts 4 zeroInfo = some tbl)) :=
  ⟨by decide,
    ANSBuildInfoTable_zero_count_safe sampleConfig sampleCounts 4 zeroInfo (by decide)⟩

/-- C16: with `USE_MULT_BY_RECIPROCAL` defined, fields of at most 32 bits, and
a precision `P = RECIPROCAL_PRECISION` below 64 and below the width of
`ifreq_`: in every table that `ANSBuildInfoTable` returns, a symbol with
`f = freq[s] > 0` has `ifreq[s] = (2^P + f - 1) div f`, and for every `x` with
`x * (f - 1) < 2^P` the multiply-and-shift `(x * ifreq[s]) >> P` is
`floor(x / f)`; in particular for every `x < 2^P / (f - 1)` when `f > 1`.  The
function returns a table for counts in the range of the `freq_` field. -/
theorem ANSBuildInfoTable_reciprocal_range (cfg : ANSConfig) (counts : Nat → Int)
    (alphabet_size : Nat) (info : Nat → ANSEncSymbolInfo)
    (hu : cfg.USE_MULT_BY_RECIPROCAL = true) (hW : cfg.field_bits ≤ 32)
    (hP : cfg.RECIPROCAL_PRECISION < 64)
    (hI : cfg.RECIPROCAL_PRECISION < cfg.ifreq_bits) :
    (∀ tbl, ANSBuildInfoTable cfg counts alphabet_size info = some tbl →
      ∀ s, s < alphabet_size → 0 < (tbl s).freq_ →
        (tbl s).ifreq_ =
          (2 ^ cfg.RECIPROCAL_PRECISION + (tbl s).freq_ - 1) / (tbl s).freq_ ∧
        (∀ x, x * ((tbl s).freq_ - 1) < 2 ^ cfg.RECIPROCAL_PRECISION →
          (x * (tbl s).ifreq_) >>> cfg.RECIPROCAL_PRECISION = x / (tbl s).freq_) ∧
        (∀ x, 1 < (tbl s).freq_ →
          x < 2 ^ cfg.RECIPROCAL_PRECISION / ((tbl s).freq_ - 1) →
          (x * (tbl s).ifreq_) >>> cfg.RECIPROCAL_PRECISION = x / (tbl s).freq_)) ∧
    ((∀ j, j < alphabet_size → 0 ≤ counts j ∧ counts j < 2 ^ cfg.field_bits) →
      ∃ tbl, ANSBuildInfoTable cfg counts alphabet_size info = some tbl) := by
  constructor
  · intro tbl htbl s hs hf
    have hform := ANSBuildInfoTable_eq_some cfg counts alphabet_size info tbl hW htbl
    have hent : tbl s = entryOf cfg counts (info s) s := by
      rw [hform]; simp [hs]
    have hi : (tbl s).ifreq_ =
        (2 ^ cfg.RECIPROCAL_PRECISION + (tbl s).freq_ - 1) / (tbl s).freq_ := by
      rw [hent] at hf ⊢
      exact entryOf_ifreq cfg counts (info s) s hu hW hP hI hf
    refine ⟨hi, ?_, ?_⟩
    · intro x hx
      rw [hi]
      exact mulShift_exact _ _ _ hf hx
    · intro x hf1 hx
      rw [hi]
      apply mulShift_exact _ _ _ hf
      have h1 : (x + 1) * ((tbl s).freq_ - 1) ≤ 2 ^ cfg.RECIPROCAL_PRECISION :=
        (Nat.le_div_iff_mul_le (by omega)).mp hx
      have h2 : (x + 1) * ((tbl s).freq_ - 1) =
          x * ((tbl s).freq_ - 1) + ((tbl s).freq_ - 1) := by ring
      omega
  · intro hc
    exact ⟨_, ANSBuildInfoTable_spec cfg counts alphabet_size info hW
      (no_zero_divisor_of_fit cfg counts alphabet_size hc)⟩

/-- Instance of C16: the counts 3, 5, 0, 8 under the sample configuration,
precision 42. -/
theorem ANSBuildInfoTable_reciprocal_range_witness :
    sampleConfig.USE_MULT_BY_RECIPROCAL = true ∧ sampleConfig.field_bits ≤ 32 ∧
    sampleConfig.RECIPROCAL_PRECISION < 64 ∧
    sampleConfig.RECIPROCAL_PRECISION < sampleConfig.ifreq_bits ∧
    ((∀ tbl, ANSBuildInfoTable sampleConfig sampleCounts 4 zeroInfo = some tbl →
      ∀ s, s < 4 → 0 < (tbl s).freq_ →
        (tbl s).ifreq_ =
          (2 ^ sampleConfig.RECIPROCAL_PRECISION + (tbl s).freq_ - 1) / (tbl s).freq_ ∧
        (∀ x, x * ((tbl s).freq_ - 1) < 2 ^ sampleConfig.RECIPROCAL_PRECISION →
          (x * (tbl s).ifreq_) >>> sampleConfig.RECIPROCAL_PRECISION =
            x / (tbl s).freq_) ∧
        (∀ x, 1 < (tbl s).freq_ →
          x < 2 ^ sampleConfig.RECIPROCAL_PRECISION / ((tbl s).freq_ - 1) →
          (x * (tbl s).ifreq_) >>> sampleConfig.RECIPROCAL_PRECISION =
            x / (tbl s).freq_)) ∧
    ((∀ j, j < 4 → 0 ≤ sampleCounts j ∧ sampleCounts j < 2 ^ sampleConfig.field_bits) →
      ∃ tbl, ANSBuildInfoTable sampleConfig sampleCounts 4 zeroInfo = some tbl)) :=
  ⟨by decide, by decide, by decide, by decide,
    ANSBuildInfoTable_reciprocal_range sampleConfig sampleCounts 4 zeroInfo
      (by decide) (by decide) (by decide) (by decide)⟩

end Brunsli
